import Mathlib

/-!
# SubRecon: the bounded-concurrency scan pipeline of `main.go`

A shallow embedding of `scanDomain`, `writeOutputToFile` and `main`.

* The sequential code (`scanDomain`, `writeOutputToFile`, the setup part of
  `main`) is embedded as functions over the outcomes of the external calls
  (`fetchSubdomains`, `os.Create`, `File.WriteString`, `loadConfig`, `os.Open`).
* The goroutines of `main` (the loop of `main`, one goroutine per domain, the
  goroutine of `writeOutputToFile`) are embedded as a small-step machine
  `step`: an `Action` names the goroutine that moves, `step` returns `none`
  when that goroutine is blocked (or the process has exited), and a schedule
  is a list of actions executed by `run`.
-/

namespace SubRecon

/-! ## Scan task (`scanDomain`, lines 69-85) -/

/-- Outcome of one call of `fetchSubdomains`: the error, or the slice
`result.Subdomains`. -/
abbrev FetchResult := Except String (List String)

deriving instance DecidableEq for Except

/-- Go `strings.Join(elems, sep)`. -/
def stringsJoin (elems : List String) (sep : String) : String :=
  sep.intercalate elems

/-- The value `strings.Join(subdomains, "\n") + "\n"` of line 80. -/
def chunk (subdomains : List String) : String :=
  stringsJoin subdomains "\n" ++ "\n"

/-- The sequence of values `scanDomain` sends on `output`, given what
`fetchSubdomains` returned (lines 73-84). -/
def scanDomain (r : FetchResult) : List String :=
  match r with
  | .error _ => []
  | .ok subdomains =>
    if subdomains.length > 0 then [chunk subdomains] else []

/-! ## Aggregator (`writeOutputToFile`, lines 87-105) -/

/-- Outcome of one `file.WriteString(line)`: `ok` is a nil error (the whole
line is in the file); `fail n` is a non-nil error returned after `n` bytes of
the line went to the file (the byte count is discarded by the code). -/
inductive WriteOutcome
  | ok
  | fail (n : Nat)
  deriving DecidableEq, Repr

/-- The bytes of a Go string: the UTF-8 encoding of its characters (the
content of `String.toUTF8`). A file holds bytes, and the count `n` that
`WriteString` returns is a number of bytes. -/
def goBytes (s : String) : List UInt8 :=
  s.data.flatMap String.utf8EncodeChar

/-- The part of `line` a `WriteString` call put in the file before it failed:
its first `n` bytes (all of them when `n` exceeds its length). The cut may fall
inside the encoding of a character. -/
def firstBytes (n : Nat) (line : String) : List UInt8 :=
  (goBytes line).take n

/-- Program points of `writeOutputToFile`. -/
inductive AggPc
  /-- Before `os.Create(filename)`. -/
  | creating
  /-- At the head of `for line := range output`. -/
  | receiving
  /-- At a `done <- b` statement. -/
  | signalling (b : Bool)
  /-- After the send on `done`. -/
  | returned
  deriving DecidableEq, Repr

/-- Local state of the goroutine running `writeOutputToFile`, with the output
file it owns. -/
structure Agg where
  pc : AggPc
  /-- Content of the file named by `filename`, in bytes. -/
  file : List UInt8
  /-- Outcomes of the `WriteString` calls still to come (none left: success). -/
  writes : List WriteOutcome
  /-- Whether `os.Create` has returned a file. -/
  created : Bool
  /-- Lines received from `output` so far, oldest first. -/
  received : List String
  /-- Number of `WriteString` calls that returned an error so far. -/
  failedWrites : Nat
  /-- Values sent on `done` so far. -/
  signals : List Bool
  deriving DecidableEq, Repr

/-- State of the aggregator when its goroutine starts; `pre` is what the file
held before the run. -/
def Agg.start (pre : List UInt8) (writes : List WriteOutcome) : Agg :=
  ⟨.creating, pre, writes, false, [], 0, []⟩

/-- Lines 88-93: `os.Create` truncates the file, or fails. -/
def aggCreate (createOk : Bool) (a : Agg) : Agg :=
  if createOk then { a with pc := .receiving, file := [], created := true }
  else { a with pc := .signalling false }

/-- Lines 97-102: one iteration of the loop body with the received `line`. -/
def aggWrite (line : String) (a : Agg) : Agg :=
  match a.writes with
  | [] => { a with file := a.file ++ goBytes line, received := a.received ++ [line] }
  | .ok :: ws =>
    { a with file := a.file ++ goBytes line, received := a.received ++ [line], writes := ws }
  | .fail n :: ws =>
    { a with file := a.file ++ firstBytes n line, received := a.received ++ [line],
             writes := ws, failedWrites := a.failedWrites + 1, pc := .signalling false }

/-- Line 104: the range loop ended because `output` is closed and drained. -/
def aggClosed (a : Agg) : Agg :=
  { a with pc := .signalling true }

/-- The send `done <- b` is taken by the receiver. -/
def aggSignal (a : Agg) : Agg :=
  match a.pc with
  | .signalling b => { a with pc := .returned, signals := a.signals ++ [b] }
  | _ => a

/-- The loop of lines 96-103 over the lines delivered on `output` before it is
closed. -/
def aggLoop : List String → Agg → Agg
  | [], a => aggClosed a
  | line :: rest, a =>
    let a1 := aggWrite line a
    if a1.pc = .receiving then aggLoop rest a1 else a1

/-- Run `writeOutputToFile` to its return: `output` lists the lines delivered
on the channel before it is closed, in order, and the receiver of `done` is
ready. -/
def writeOutputToFile (createOk : Bool) (pre : List UInt8) (writes : List WriteOutcome)
    (output : List String) : Agg :=
  let a := aggCreate createOk (Agg.start pre writes)
  aggSignal (if a.pc = .receiving then aggLoop output a else a)

/-! ## The goroutines of `main` (lines 182-211) -/

/-- Program points of the goroutine `main` starts for one domain (lines
196-199) and of the `scanDomain` call it makes. -/
inductive TaskPc
  /-- The loop of `main` has not reached this domain yet. -/
  | pending
  /-- The goroutine exists; `scanDomain` has not been entered. -/
  | spawned
  /-- Inside `scanDomain`, in the call of `fetchSubdomains` (line 73). -/
  | fetching
  /-- Inside `scanDomain`, at `output <- line` (line 80). -/
  | sending (line : String)
  /-- Inside `scanDomain`, at its return: the deferred `wg.Done()` is due. -/
  | returning
  /-- `scanDomain` has returned; the deferred `<-semaphore` is due. -/
  | releasing
  /-- The goroutine has ended. -/
  | exited
  deriving DecidableEq, Repr

/-- One entry of `domains` with its goroutine. -/
structure Task where
  domain : String
  /-- What `fetchSubdomains` returns for this entry. -/
  result : FetchResult
  pc : TaskPc
  /-- Number of `wg.Done()` calls made by this task. -/
  dones : Nat
  /-- Number of `<-semaphore` receives made by this task. -/
  releases : Nat
  /-- Lines this task has sent on `output`, oldest first. -/
  sends : List String
  deriving DecidableEq

/-- Program points of `main` from line 193 on. -/
inductive MainPc
  /-- Head of `for _, domain := range domains`, at index `i`. -/
  | loop (i : Nat)
  /-- After `wg.Add(1)`, at `semaphore <- struct{}{}` (line 195). -/
  | acquire (i : Nat)
  /-- Holding the slot, at the `go` statement (line 196). -/
  | spawn (i : Nat)
  /-- At `wg.Wait()` (line 202). -/
  | wait
  /-- At `close(output)` (line 203). -/
  | closing
  /-- At `success := <-done` (line 204). -/
  | recv
  /-- Past line 204 with the value of `success`; the process ends. -/
  | finished (success : Bool)
  deriving DecidableEq, Repr

/-- What a run of the pipeline is given: the domain list with the outcome of
each entry's fetch, the `-t` value, and the behaviour of the output file. -/
structure Cfg where
  /-- The entries of `domains`, each with what `fetchSubdomains` returns for it. -/
  entries : List (String × FetchResult)
  /-- Value of `*threadsFlag`, the capacity of `semaphore`. -/
  threads : Nat
  /-- Whether `os.Create(filename)` succeeds. -/
  createOk : Bool
  /-- Content of the output file before the run, in bytes. -/
  pre : List UInt8
  /-- Outcomes of the successive `WriteString` calls (none left: success). -/
  writes : List WriteOutcome

/-- Shared state of the goroutines. -/
structure St where
  main : MainPc
  tasks : List Task
  agg : Agg
  /-- Counter of the wait group `wg`. -/
  wg : Nat
  /-- Number of values held in the channel `semaphore`. -/
  sem : Nat
  /-- Buffer of the channel `output`, oldest first. -/
  out : List String
  /-- Whether `output` has been closed. -/
  closed : Bool
  /-- Number of `fetchSubdomains` calls made so far. -/
  fetchCalls : Nat
  /-- Number of sends on `output` made so far. -/
  sent : Nat
  deriving DecidableEq

/-- The goroutine that makes the next move. -/
inductive Action
  | main
  | task (i : Nat)
  | agg
  deriving DecidableEq, Repr

/-- State after lines 183-192: channels made, `writeOutputToFile` started. -/
def init (cfg : Cfg) : St where
  main := .loop 0
  tasks := cfg.entries.map fun e => ⟨e.1, e.2, .pending, 0, 0, []⟩
  agg := Agg.start cfg.pre cfg.writes
  wg := 0
  sem := 0
  out := []
  closed := false
  fetchCalls := 0
  sent := 0

/-- One move of `main` (lines 193-204); `none` when `main` cannot move. A send
on the full `semaphore`, `wg.Wait()` on a non-zero counter and `<-done` without
a sender block; `close` of a closed channel panics. The receive on the
unbuffered `done` is one move with the send of the aggregator. -/
def stepMain (cfg : Cfg) (s : St) : Option St :=
  match s.main with
  | .loop i =>
    if i < s.tasks.length then some { s with wg := s.wg + 1, main := .acquire i }
    else some { s with main := .wait }
  | .acquire i =>
    if s.sem < cfg.threads then some { s with sem := s.sem + 1, main := .spawn i }
    else none
  | .spawn i =>
    match s.tasks[i]? with
    | some t =>
      some { s with tasks := s.tasks.set i { t with pc := .spawned }, main := .loop (i + 1) }
    | none => none
  | .wait => if s.wg = 0 then some { s with main := .closing } else none
  | .closing =>
    if s.closed then none else some { s with closed := true, main := .recv }
  | .recv =>
    match s.agg.pc with
    | .signalling b => some { s with agg := aggSignal s.agg, main := .finished b }
    | _ => none
  | .finished _ => none

/-- One move of the goroutine of entry `i` (lines 196-199 and 69-85); `none`
when it cannot move. A send on `output` blocks when the buffer, of capacity
`len(domains)`, is full, and panics when `output` is closed; `wg.Done()` on a
zero counter panics; `<-semaphore` blocks when the channel is empty. The
deferred calls run in the order of the code: `wg.Done()` when `scanDomain`
returns, then `<-semaphore` when the goroutine function returns. -/
def stepTask (cfg : Cfg) (i : Nat) (s : St) : Option St :=
  match s.tasks[i]? with
  | none => none
  | some t =>
    match t.pc with
    | .pending => none
    | .spawned =>
      some { s with tasks := s.tasks.set i { t with pc := .fetching },
                    fetchCalls := s.fetchCalls + 1 }
    | .fetching =>
      match t.result with
      | .error _ => some { s with tasks := s.tasks.set i { t with pc := .returning } }
      | .ok subdomains =>
        if subdomains.length > 0 then
          some { s with tasks := s.tasks.set i { t with pc := .sending (chunk subdomains) } }
        else some { s with tasks := s.tasks.set i { t with pc := .returning } }
    | .sending line =>
      if s.closed then none
      else if s.out.length < cfg.entries.length then
        some { s with out := s.out ++ [line], sent := s.sent + 1,
                      tasks := s.tasks.set i { t with pc := .returning, sends := t.sends ++ [line] } }
      else none
    | .returning =>
      if s.wg = 0 then none
      else some { s with wg := s.wg - 1,
                         tasks := s.tasks.set i { t with pc := .releasing, dones := t.dones + 1 } }
    | .releasing =>
      if s.sem = 0 then none
      else some { s with sem := s.sem - 1,
                         tasks := s.tasks.set i { t with pc := .exited, releases := t.releases + 1 } }
    | .exited => none

/-- One move of the goroutine of `writeOutputToFile`; `none` when it cannot
move. The range loop takes the oldest line of the buffer, ends when `output`
is empty and closed, and blocks when it is empty and open; `done <- b` blocks
until `main` receives (that move is `stepMain` at `recv`). -/
def stepAgg (cfg : Cfg) (s : St) : Option St :=
  match s.agg.pc with
  | .creating => some { s with agg := aggCreate cfg.createOk s.agg }
  | .receiving =>
    match s.out with
    | line :: rest => some { s with out := rest, agg := aggWrite line s.agg }
    | [] => if s.closed then some { s with agg := aggClosed s.agg } else none
  | .signalling _ => none
  | .returned => none

/-- One move of the program: no goroutine moves once `main` has returned. -/
def step (cfg : Cfg) (a : Action) (s : St) : Option St :=
  match s.main with
  | .finished _ => none
  | _ =>
    match a with
    | .main => stepMain cfg s
    | .task i => stepTask cfg i s
    | .agg => stepAgg cfg s

/-- Execute a schedule from a state; `none` when a scheduled goroutine cannot
move. -/
def run (cfg : Cfg) : List Action → St → Option St
  | [], s => some s
  | a :: as, s => (step cfg a s).bind (run cfg as)

/-- Number of tasks that have started `scanDomain` and not yet finished it. -/
def inScan (t : Task) : Nat :=
  match t.pc with
  | .fetching | .sending _ | .returning => 1
  | _ => 0

/-- Number of tasks executing `scanDomain` in a state. -/
def running (s : St) : Nat := (s.tasks.map inScan).sum

/-! ## Quantities used to state the properties -/

/-- Whether the task holds a slot of `semaphore` (1) or not (0). -/
def holds (t : Task) : Nat :=
  match t.pc with
  | .pending | .exited => 0
  | _ => 1

/-- Whether the task is counted by the wait group (1) or not (0). -/
def active (t : Task) : Nat :=
  match t.pc with
  | .pending | .releasing | .exited => 0
  | _ => 1

/-- Whether the task is past the `if len(subdomains) > 0` statement of
`scanDomain`. -/
def TaskPc.past : TaskPc → Bool
  | .returning | .releasing | .exited => true
  | _ => false

/-- The lines the task has sent on `output`. -/
def sentBy (t : Task) : List String :=
  if t.pc.past then scanDomain t.result else []

/-- The lines sent on `output` by all tasks, in the order of `domains`. -/
def sentChunks : List Task → List String
  | [] => []
  | t :: ts => sentBy t ++ sentChunks ts

/-- Whether the task is at its send on `output` (1) or not (0). -/
def atSend (t : Task) : Nat :=
  match t.pc with
  | .sending _ => 1
  | _ => 0

/-- Slots of `semaphore` acquired by `main` for a goroutine not yet started. -/
def mainHolds : MainPc → Nat
  | .spawn _ => 1
  | _ => 0

/-- Additions to `wg` made by `main` for a goroutine not yet started. -/
def mainAdds : MainPc → Nat
  | .acquire _ | .spawn _ => 1
  | _ => 0

/-- Index of the first entry of `domains` the loop of `main` has not started. -/
def nextIdx (s : St) : Nat :=
  match s.main with
  | .loop i | .acquire i | .spawn i => i
  | _ => s.tasks.length

/-- Moves left to a task, counting twice the send (it fills the buffer). -/
def taskFuel (t : Task) : Nat :=
  match t.pc with
  | .pending => 7
  | .spawned => 6
  | .fetching => 5
  | .sending _ => 4
  | .returning => 2
  | .releasing => 1
  | .exited => 0

/-- Moves left to `main`, for a list of `m` domains. -/
def mainFuel (m : Nat) : MainPc → Nat
  | .loop i => 10 * (m - i) + 6
  | .acquire i => 10 * (m - i) + 5
  | .spawn i => 10 * (m - i) + 4
  | .wait => 3
  | .closing => 2
  | .recv => 1
  | .finished _ => 0

/-- Moves left to the aggregator, the lines of the buffer apart. -/
def aggFuel : AggPc → Nat
  | .creating => 3
  | .receiving => 2
  | .signalling _ => 1
  | .returned => 0

/-- An upper bound on the number of moves the program can still make. -/
def fuel (s : St) : Nat :=
  mainFuel s.tasks.length s.main + (s.tasks.map taskFuel).sum + aggFuel s.agg.pc
    + s.out.length

/-- Whether `main` has returned. -/
def MainPc.isFinished : MainPc → Bool
  | .finished _ => true
  | _ => false

/-- The moves of `step`, one constructor per statement executed. -/
inductive Step (cfg : Cfg) : St → St → Prop
  | loopNext {s : St} {i : Nat} (hm : s.main = .loop i) (hi : i < s.tasks.length) :
      Step cfg s { s with wg := s.wg + 1, main := .acquire i }
  | loopEnd {s : St} {i : Nat} (hm : s.main = .loop i) (hi : ¬ i < s.tasks.length) :
      Step cfg s { s with main := .wait }
  | acquire {s : St} {i : Nat} (hm : s.main = .acquire i) (hs : s.sem < cfg.threads) :
      Step cfg s { s with sem := s.sem + 1, main := .spawn i }
  | spawn {s : St} {i : Nat} {t : Task} (hm : s.main = .spawn i) (ht : s.tasks[i]? = some t) :
      Step cfg s { s with tasks := s.tasks.set i { t with pc := .spawned }, main := .loop (i + 1) }
  | wait {s : St} (hm : s.main = .wait) (hw : s.wg = 0) :
      Step cfg s { s with main := .closing }
  | close {s : St} (hm : s.main = .closing) (hc : s.closed = false) :
      Step cfg s { s with closed := true, main := .recv }
  | recv {s : St} {b : Bool} (hm : s.main = .recv) (ha : s.agg.pc = .signalling b) :
      Step cfg s { s with agg := { s.agg with pc := .returned, signals := s.agg.signals ++ [b] },
                          main := .finished b }
  | enter {s : St} {i : Nat} {t : Task} (hm : s.main.isFinished = false)
      (ht : s.tasks[i]? = some t) (hp : t.pc = .spawned) :
      Step cfg s { s with tasks := s.tasks.set i { t with pc := .fetching },
                          fetchCalls := s.fetchCalls + 1 }
  | fetchNone {s : St} {i : Nat} {t : Task} (hm : s.main.isFinished = false)
      (ht : s.tasks[i]? = some t) (hp : t.pc = .fetching) (hr : scanDomain t.result = []) :
      Step cfg s { s with tasks := s.tasks.set i { t with pc := .returning } }
  | fetchSome {s : St} {i : Nat} {t : Task} {line : String} (hm : s.main.isFinished = false)
      (ht : s.tasks[i]? = some t) (hp : t.pc = .fetching) (hr : scanDomain t.result = [line]) :
      Step cfg s { s with tasks := s.tasks.set i { t with pc := .sending line } }
  | send {s : St} {i : Nat} {t : Task} {line : String} (hm : s.main.isFinished = false)
      (ht : s.tasks[i]? = some t) (hp : t.pc = .sending line) (hc : s.closed = false)
      (hb : s.out.length < cfg.entries.length) :
      Step cfg s { s with out := s.out ++ [line], sent := s.sent + 1,
                          tasks := s.tasks.set i { t with pc := .returning, sends := t.sends ++ [line] } }
  | done {s : St} {i : Nat} {t : Task} (hm : s.main.isFinished = false)
      (ht : s.tasks[i]? = some t) (hp : t.pc = .returning) (hw : s.wg ≠ 0) :
      Step cfg s { s with wg := s.wg - 1,
                          tasks := s.tasks.set i { t with pc := .releasing, dones := t.dones + 1 } }
  | release {s : St} {i : Nat} {t : Task} (hm : s.main.isFinished = false)
      (ht : s.tasks[i]? = some t) (hp : t.pc = .releasing) (hs : s.sem ≠ 0) :
      Step cfg s { s with sem := s.sem - 1,
                          tasks := s.tasks.set i { t with pc := .exited, releases := t.releases + 1 } }
  | create {s : St} (hm : s.main.isFinished = false) (ha : s.agg.pc = .creating) :
      Step cfg s { s with agg := aggCreate cfg.createOk s.agg }
  | write {s : St} {line : String} {rest : List String} (hm : s.main.isFinished = false)
      (ha : s.agg.pc = .receiving) (ho : s.out = line :: rest) :
      Step cfg s { s with out := rest, agg := aggWrite line s.agg }
  | drained {s : St} (hm : s.main.isFinished = false) (ha : s.agg.pc = .receiving)
      (ho : s.out = []) (hc : s.closed = true) :
      Step cfg s { s with agg := aggClosed s.agg }

/-- States the program can be in: those some schedule leads to. -/
inductive Reach (cfg : Cfg) : St → Prop
  | start : Reach cfg (init cfg)
  | next {s t : St} : Reach cfg s → Step cfg s t → Reach cfg t

/-- The counters of `semaphore` and `wg` count the tasks, and the loop of
`main` starts the tasks in the order of `domains`. -/
structure CountInv (cfg : Cfg) (s : St) : Prop where
  len : s.tasks.length = cfg.entries.length
  sem_eq : s.sem = (s.tasks.map holds).sum + mainHolds s.main
  sem_le : s.sem ≤ cfg.threads
  wg_eq : s.wg = (s.tasks.map active).sum + mainAdds s.main
  idx_le : nextIdx s ≤ s.tasks.length
  idx_lt : mainAdds s.main = 1 → nextIdx s < s.tasks.length
  pend : ∀ (j : Nat) (y : Task), s.tasks[j]? = some y → (y.pc = .pending ↔ nextIdx s ≤ j)

/-- What holds of one task at every moment: a task at its send carries the
line `scanDomain` builds from its fetch result, and it has called `wg.Done()`
and received from `semaphore` once each exactly when it is past them. -/
def TaskOk (y : Task) : Prop :=
  (∀ line, y.pc = .sending line → scanDomain y.result = [line]) ∧
  y.dones = (if y.pc = .releasing ∨ y.pc = .exited then 1 else 0) ∧
  y.releases = (if y.pc = .exited then 1 else 0) ∧
  y.sends = sentBy y

/-- The tasks are the entries of `domains`, each in a consistent state. -/
structure TaskInv (cfg : Cfg) (s : St) : Prop where
  entries : s.tasks.map (fun t => (t.domain, t.result)) = cfg.entries
  ok : ∀ (j : Nat) (y : Task), s.tasks[j]? = some y → TaskOk y

/-- The channel `output` is closed exactly when `main` is past `close(output)`,
and the wait group is at zero from `close(output)` on. -/
structure MainInv (s : St) : Prop where
  late : (s.main = .closing ∨ s.main = .recv ∨ s.main.isFinished = true) → s.wg = 0
  closed_iff : s.closed = true ↔ (s.main = .recv ∨ s.main.isFinished = true)

/-- The lines received by the aggregator and those still in the buffer of
`output` are the lines the tasks have sent. -/
structure FlowInv (s : St) : Prop where
  sent_eq : s.sent = (sentChunks s.tasks).length
  perm : (s.agg.received ++ s.out).Perm (sentChunks s.tasks)

/-- State of the aggregator at each of its program points. -/
structure AggInv (cfg : Cfg) (s : St) : Prop where
  creating : s.agg.pc = .creating →
    s.agg.created = false ∧ s.agg.failedWrites = 0 ∧ s.agg.received = [] ∧
      s.agg.signals = [] ∧ s.agg.file = cfg.pre
  receiving : s.agg.pc = .receiving →
    s.agg.created = true ∧ s.agg.failedWrites = 0 ∧ s.agg.signals = []
  signalling : ∀ b, s.agg.pc = .signalling b →
    s.agg.signals = [] ∧ (b = true ↔ s.agg.created = true ∧ s.agg.failedWrites = 0) ∧
      (b = true → s.closed = true ∧ s.out = [])
  returned : s.agg.pc = .returned ↔ s.main.isFinished = true
  finished : ∀ b, s.main = .finished b →
    s.agg.signals = [b] ∧ (b = true ↔ s.agg.created = true ∧ s.agg.failedWrites = 0) ∧
      (b = true → s.out = [])
  createdEq : s.agg.pc ≠ .creating → s.agg.created = cfg.createOk
  clean : (∀ w ∈ cfg.writes, w = WriteOutcome.ok) →
    (∀ w ∈ s.agg.writes, w = WriteOutcome.ok) ∧ s.agg.failedWrites = 0 ∧
      (s.agg.created = true → s.agg.file = goBytes (String.join s.agg.received))

/-! ## Concrete runs -/

/-- The scenario of three domains: `a.com` has two subdomains, `b.com` has
none, the fetch of `c.com` fails; two threads, every write succeeds. -/
def scenario : Cfg :=
  ⟨[("a.com", .ok ["x.a.com", "y.a.com"]), ("b.com", .ok []), ("c.com", .error "timeout")],
    2, true, goBytes "stale\n", []⟩

/-- A schedule of `scenario` up to the moment `a.com` and `b.com` are both
inside `scanDomain`. -/
def scheduleTwoInScan : List Action :=
  [.main, .main, .main, .main, .main, .main, .task 0, .task 1]

/-- A schedule of `scenario` that runs it to the return of `main`, the last
task having released its slot. -/
def scheduleFull : List Action :=
  [.main, .main, .main, .main, .main, .main, .task 0, .task 1, .agg, .task 0, .task 1,
    .task 0, .task 1, .task 1, .task 0, .main, .main, .main, .task 2, .task 2, .task 2,
    .task 2, .task 0, .main, .main, .main, .agg, .agg, .main]

/-- The schedule `scheduleFull` without the last three moves: every task has
ended and `main` is at `close(output)`. -/
def scheduleTasksDone : List Action := scheduleFull.take 26

/-- Two domains with one subdomain each, one thread, and an output file that
cannot be created: the aggregator reads nothing from `output`. -/
def scenarioNoSink : Cfg :=
  ⟨[("a.com", .ok ["x.a.com"]), ("b.com", .ok ["y.b.com"])], 1, false, goBytes "stale\n", []⟩

/-- A schedule of `scenarioNoSink` in which both tasks run to their end, one
after the other, while the aggregator has not moved. -/
def scheduleNoSinkTasks : List Action :=
  [.main, .main, .main, .task 0, .task 0, .task 0, .task 0, .task 0,
    .main, .main, .main, .task 1, .task 1, .task 1, .task 1, .task 1]

/-- The schedule `scheduleNoSinkTasks` continued to the return of `main`. -/
def scheduleNoSinkFull : List Action :=
  scheduleNoSinkTasks ++ [.main, .main, .main, .agg, .main]

/-- The chunks expected in the output file, in the order of `domains`: one
for each entry whose fetch succeeded with a non-empty result, none for the
other entries. -/
def expectedChunks (entries : List (String × FetchResult)) : List String :=
  entries.filterMap fun e =>
    match e.2 with
    | .ok subdomains =>
      if subdomains = [] then none else some (stringsJoin subdomains "\n" ++ "\n")
    | .error _ => none

/-! ## Lines of a chunk -/

/-- Split a sequence of characters at the line breaks: the pieces between
consecutive line breaks, the one after the last line break included (Go
`strings.Split(s, "\n")`). -/
def splitChars : List Char → List (List Char)
  | [] => [[]]
  | c :: cs =>
    if c = '\n' then [] :: splitChars cs
    else
      match splitChars cs with
      | [] => [[c]]
      | p :: ps => (c :: p) :: ps

/-- Split a string at the line breaks. -/
def splitLines (s : String) : List String :=
  (splitChars s.data).map String.mk

/-- The lines of a chunk: its pieces between line breaks, without the final
piece that follows the trailing line break. -/
def linesOf (c : String) : List String :=
  (splitLines c).dropLast

/-! ## Setup of `main` (lines 124-177) -/

/-- What `main` finds when it starts: the outcome of the external calls it
makes and the values of the flags. -/
structure Env where
  /-- Result of `loadConfig()`: the API key, or the error of `os.ReadFile` or
  of `json.Unmarshal`. -/
  loadConfig : Except String String
  /-- Value of `*helpFlag`. -/
  helpFlag : Bool
  /-- Value of `*fileFlag`. -/
  fileFlag : String
  /-- Value of `*domainFlag`. -/
  domainFlag : String
  /-- Value of `*threadsFlag`. -/
  threadsFlag : Int
  /-- Result of `os.Open(*fileFlag)`: the error, or the lines the scanner
  yields together with `scanner.Err()`. -/
  domainFile : Except String (List String × Option String)
  /-- What `fetchSubdomains` returns for the entry of `domains` at an index. -/
  fetchSubdomains : Nat → String → FetchResult
  /-- Whether `os.Create(*outputFlag)` succeeds. -/
  createOk : Bool
  /-- Content of the output file before the run, in bytes. -/
  pre : List UInt8
  /-- Outcomes of the successive `WriteString` calls. -/
  writes : List WriteOutcome

/-- How the setup part of `main` ends. -/
inductive Setup
  /-- An error is printed and `main` returns. -/
  | abort (message : String)
  /-- The help text is printed and `main` returns (lines 142-145). -/
  | help
  /-- The scan starts with the API key and the list `domains`. -/
  | start (apiKey : String) (domains : List String)
  deriving DecidableEq, Repr

/-- Lines 126-177 of `main`: load the configuration, read the flags, build
`domains`. -/
def setup (env : Env) : Setup :=
  match env.loadConfig with
  | .error e => .abort ("Error loading config: " ++ e)
  | .ok apiKey =>
    if env.helpFlag then .help
    else if env.fileFlag = "" ∧ env.domainFlag = "" then
      .abort "Please specify either a file with -f or a single domain with -d"
    else
      let single := if env.domainFlag ≠ "" then [env.domainFlag] else []
      if env.fileFlag ≠ "" then
        match env.domainFile with
        | .error e => .abort ("Error opening file: " ++ e)
        | .ok (_, some e) => .abort ("Error reading file: " ++ e)
        | .ok (lines, none) => .start apiKey (lines ++ single)
      else .start apiKey single

/-- The entries of `domains` from index `i` on, each with the result of its
fetch. -/
def entriesFrom (fetch : Nat → String → FetchResult) :
    Nat → List String → List (String × FetchResult)
  | _, [] => []
  | i, d :: ds => (d, fetch i d) :: entriesFrom fetch (i + 1) ds

/-- The pipeline `main` runs on `domains`, for a thread count that is not
negative. -/
def pipeline (env : Env) (domains : List String) : Cfg :=
  ⟨entriesFrom env.fetchSubdomains 0 domains, env.threadsFlag.toNat, env.createOk, env.pre, env.writes⟩

/-- What a run of the program has done. -/
structure Observed where
  /-- Number of `fetchSubdomains` calls made. -/
  fetchCalls : Nat
  /-- Whether `os.Create` has made the output file. -/
  sinkCreated : Bool
  /-- Content of the output file, in bytes. -/
  file : List UInt8
  /-- Value of `success`, once `main` is past line 204. -/
  success : Option Bool
  deriving DecidableEq, Repr

/-- What a state of the pipeline shows. -/
def observe (s : St) : Observed :=
  ⟨s.fetchCalls, s.agg.created, s.agg.file,
    match s.main with
    | .finished b => some b
    | _ => none⟩

/-- The whole of `main` under a schedule of the goroutines. When the setup
ends in a return nothing has been started and no goroutine exists to move.
With a negative thread count `make(chan struct{}, n)` panics at line 191; that
run is not followed further (`none`). -/
def main (env : Env) (sched : List Action) : Option Observed :=
  match setup env with
  | .start _ domains =>
    if env.threadsFlag < 0 then none
    else (run (pipeline env domains) sched (init (pipeline env domains))).map observe
  | _ =>
    match sched with
    | [] => some ⟨0, false, env.pre, none⟩
    | _ :: _ => none

/-- An environment without `config.json`. -/
def envNoConfig : Env :=
  ⟨.error "open config.json: no such file or directory", false, "", "a.com", 5,
    .error "unused", fun _ _ => .ok ["x.a.com"], true, goBytes "stale\n", []⟩

/-- A schedule that runs the scan of a single domain to the return of `main`. -/
def scheduleSingle : List Action :=
  [.main, .main, .main, .task 0, .task 0, .task 0, .task 0, .task 0, .main, .main, .main,
    .agg, .agg, .agg, .main]

/-- An environment with a key and the single domain `a.com`. -/
def envSingle : Env :=
  ⟨.ok "key", false, "", "a.com", 5, .error "unused", fun _ _ => .ok ["x.a.com"], true,
    goBytes "stale\n", []⟩

/-- State of the aggregator right after `os.Create` has succeeded. -/
def Agg.opened (cfg : Cfg) : Agg :=
  aggCreate true (Agg.start cfg.pre cfg.writes)

/-- The aggregator goroutine is at a point of the run of `writeOutputToFile`
on the lines it has received: continuing that run with any further lines is
continuing from its state. -/
structure SeqInv (cfg : Cfg) (s : St) : Prop where
  creating : s.agg.pc = .creating → s.agg = Agg.start cfg.pre cfg.writes
  receiving : s.agg.pc = .receiving →
    cfg.createOk = true ∧
      ∀ rest, aggLoop (s.agg.received ++ rest) (Agg.opened cfg) = aggLoop rest s.agg
  signalling : ∀ b, s.agg.pc = .signalling b → ∀ rest, (b = true → rest = []) →
    writeOutputToFile cfg.createOk cfg.pre cfg.writes (s.agg.received ++ rest)
      = aggSignal s.agg
  returned : s.agg.pc = .returned →
    writeOutputToFile cfg.createOk cfg.pre cfg.writes (s.agg.received ++ s.out) = s.agg

/-! ## Lists -/

theorem goBytes_append (a b : String) : goBytes (a ++ b) = goBytes a ++ goBytes b := by
  simp [goBytes, String.data_append, List.flatMap_append]

theorem goBytes_empty : goBytes "" = [] := rfl

/-- The bytes of a concatenation of lines are the bytes of the lines, one
line after the other. -/
theorem goBytes_join (l : List String) : goBytes (String.join l) = l.flatMap goBytes := by
  have h : ∀ (m : List String) (acc : String),
      goBytes (m.foldl (fun r x => r ++ x) acc) = goBytes acc ++ m.flatMap goBytes := by
    intro m
    induction m with
    | nil => intro acc; simp
    | cons x m ih =>
      intro acc
      simp only [List.foldl_cons, ih, goBytes_append, List.flatMap_cons, List.append_assoc]
  simpa [String.join, goBytes_empty] using h l ""

theorem sum_map_set {α : Type} (f : α → Nat) :
    ∀ (l : List α) (i : Nat) (t x : α), l[i]? = some t →
      ((l.set i x).map f).sum + f t = (l.map f).sum + f x
  | [], i, t, x, h => by simp at h
  | a :: l, 0, t, x, h => by
    simp at h
    subst h
    simp
    omega
  | a :: l, i + 1, t, x, h => by
    simp at h
    have := sum_map_set f l i t x h
    simp only [List.set_cons_succ, List.map_cons, List.sum_cons]
    omega

theorem le_sum_map {α : Type} (f : α → Nat) :
    ∀ (l : List α) (i : Nat) (t : α), l[i]? = some t → f t ≤ (l.map f).sum
  | [], i, t, h => by simp at h
  | a :: l, 0, t, h => by
    simp at h
    subst h
    simp
  | a :: l, i + 1, t, h => by
    simp at h
    have := le_sum_map f l i t h
    simp
    omega

theorem exists_of_sum_map_pos {α : Type} (f : α → Nat) :
    ∀ (l : List α), 0 < (l.map f).sum → ∃ (i : Nat) (t : α), l[i]? = some t ∧ 0 < f t
  | [], h => by simp at h
  | a :: l, h => by
    by_cases ha : 0 < f a
    · exact ⟨0, a, by simp, ha⟩
    · have hl : 0 < (l.map f).sum := by
        simp at h ha
        omega
      obtain ⟨i, t, hi, ht⟩ := exists_of_sum_map_pos f l hl
      exact ⟨i + 1, t, by simpa using hi, ht⟩

theorem sum_map_le_length {α : Type} (f : α → Nat) :
    ∀ (l : List α), (∀ x ∈ l, f x ≤ 1) → (l.map f).sum ≤ l.length
  | [], _ => by simp
  | a :: l, h => by
    have h1 := h a (by simp)
    have h2 := sum_map_le_length f l (fun x hx => h x (by simp [hx]))
    simp
    omega

theorem getElem?_set_imp {α : Type} {l : List α} {i : Nat} {x : α} {j : Nat} {y : α}
    (h : (l.set i x)[j]? = some y) : (j = i ∧ y = x) ∨ (j ≠ i ∧ l[j]? = some y) := by
  rw [List.getElem?_set] at h
  by_cases hij : i = j
  · subst hij
    left
    by_cases hl : i < l.length
    · simp [hl] at h
      exact ⟨rfl, h.symm⟩
    · simp [hl] at h
  · right
    simp [hij] at h
    exact ⟨fun e => hij e.symm, h⟩

/-! ## The machine and its relation -/

theorem step_sound {cfg : Cfg} {a : Action} {s t : St} (h : step cfg a s = some t) :
    Step cfg s t := by
  unfold step at h
  split at h
  · simp at h
  · rename_i hfin
    have hm : s.main.isFinished = false := by
      cases hs : s.main <;> simp [MainPc.isFinished]
      exact absurd hs (hfin _)
    cases a with
    | main =>
      simp only [stepMain] at h
      split at h
      · rename_i i hi
        split at h <;> cases h
        · exact Step.loopNext hi (by assumption)
        · exact Step.loopEnd hi (by assumption)
      · rename_i i hi
        split at h <;> cases h
        exact Step.acquire hi (by assumption)
      · rename_i i hi
        split at h <;> cases h
        exact Step.spawn hi (by assumption)
      · rename_i hi
        split at h <;> cases h
        exact Step.wait hi (by assumption)
      · rename_i hi
        split at h <;> cases h
        exact Step.close hi (by simpa using ‹¬ s.closed = true›)
      · rename_i hi
        split at h <;> cases h
        rename_i b hb
        simp only [aggSignal, hb]
        exact Step.recv hi hb
      · cases h
    | task i =>
      simp only [stepTask] at h
      split at h
      · cases h
      · rename_i t ht
        split at h
        · cases h
        · cases h
          exact Step.enter hm ht (by assumption)
        · rename_i hp
          split at h
          · cases h
            rename_i e he
            exact Step.fetchNone hm ht hp (by simp [scanDomain, he])
          · rename_i subs hsubs
            split at h <;> cases h
            · rename_i hl
              exact Step.fetchSome hm ht hp (by simp [scanDomain, hsubs, hl])
            · rename_i hl
              exact Step.fetchNone hm ht hp (by simp [scanDomain, hsubs, hl])
        · rename_i line hp
          split at h
          · cases h
          · split at h <;> cases h
            exact Step.send hm ht hp (by simpa using ‹¬ s.closed = true›) (by assumption)
        · rename_i hp
          split at h <;> cases h
          exact Step.done hm ht hp (by assumption)
        · rename_i hp
          split at h <;> cases h
          exact Step.release hm ht hp (by assumption)
        · cases h
    | agg =>
      simp only [stepAgg] at h
      split at h
      · cases h
        exact Step.create hm (by assumption)
      · rename_i ha
        split at h
        · cases h
          exact Step.write hm ha (by assumption)
        · split at h <;> cases h
          exact Step.drained hm ha (by assumption) (by assumption)
      · cases h
      · cases h

theorem reach_run {cfg : Cfg} :
    ∀ (sched : List Action) (s t : St), Reach cfg s → run cfg sched s = some t → Reach cfg t
  | [], s, t, hs, h => by
    simp [run] at h
    exact h ▸ hs
  | a :: as, s, t, hs, h => by
    simp only [run] at h
    cases hstep : step cfg a s with
    | none => simp [hstep] at h
    | some u =>
      simp [hstep] at h
      exact reach_run as u t (Reach.next hs (step_sound hstep)) h

/-! ## Counters of the semaphore and the wait group -/

theorem sum_map_set_eq {α : Type} (f : α → Nat) {l : List α} {i : Nat} {t x : α}
    (ht : l[i]? = some t) (hx : f x = f t) : ((l.set i x).map f).sum = (l.map f).sum := by
  have := sum_map_set f l i t x ht
  omega

theorem pend_set {l : List Task} {i n : Nat} {t x : Task} (ht : l[i]? = some t)
    (hold : t.pc ≠ .pending) (hnew : x.pc ≠ .pending)
    (hp : ∀ (j : Nat) (y : Task), l[j]? = some y → (y.pc = .pending ↔ n ≤ j)) :
    ∀ (j : Nat) (y : Task), (l.set i x)[j]? = some y → (y.pc = .pending ↔ n ≤ j) := by
  intro j y hj
  rcases getElem?_set_imp hj with ⟨rfl, rfl⟩ | ⟨_, hj'⟩
  · have := hp j t ht
    simp [hnew]
    simpa [hold] using this
  · exact hp j y hj'

theorem sum_map_init (f : Task → Nat) (hf : ∀ d r, f ⟨d, r, .pending, 0, 0, []⟩ = 0) :
    ∀ (l : List (String × FetchResult)),
      ((l.map fun e => (⟨e.1, e.2, .pending, 0, 0, []⟩ : Task)).map f).sum = 0
  | [] => by simp
  | e :: l => by
    have := sum_map_init f hf l
    simp only [List.map_cons, List.sum_cons, hf]
    simpa using this

theorem countInv_init (cfg : Cfg) : CountInv cfg (init cfg) := by
  refine ⟨by simp [init], ?_, by simp [init], ?_, by simp [init, nextIdx], by simp [init, mainAdds], ?_⟩
  · simp only [init, mainHolds]
    rw [sum_map_init holds (fun _ _ => rfl)]
  · simp only [init, mainAdds]
    rw [sum_map_init active (fun _ _ => rfl)]
  · intro j y hj
    simp only [init, List.getElem?_map, Option.map_eq_some'] at hj
    obtain ⟨e, _, rfl⟩ := hj
    simp [nextIdx, init]

/-- A move of a task that keeps its slot and its wait-group count. -/
theorem countInv_task {cfg : Cfg} {s : St} {i : Nat} {t x : Task} (h : CountInv cfg s)
    (ht : s.tasks[i]? = some t) (hold : t.pc ≠ .pending) (hnew : x.pc ≠ .pending)
    (hh : holds x = holds t) (ha : active x = active t) {u : St}
    (hu1 : u.tasks = s.tasks.set i x) (hu2 : u.main = s.main) (hu3 : u.sem = s.sem)
    (hu4 : u.wg = s.wg) : CountInv cfg u := by
  obtain ⟨hlen, hsem, hle, hwg, hidx, hlt, hpend⟩ := h
  have e : nextIdx u = nextIdx s := by simp [nextIdx, hu1, hu2]
  refine ⟨by simpa [hu1] using hlen, ?_, by omega, ?_, ?_, ?_, ?_⟩
  · rw [hu1, hu2, hu3, sum_map_set_eq holds ht hh]
    exact hsem
  · rw [hu1, hu2, hu4, sum_map_set_eq active ht ha]
    exact hwg
  · rw [e, hu1]
    simpa using hidx
  · rw [e, hu1, hu2]
    simpa using hlt
  · rw [e, hu1]
    exact pend_set ht hold hnew hpend

theorem countInv_step {cfg : Cfg} {s t : St} (h : CountInv cfg s) (hs : Step cfg s t) :
    CountInv cfg t := by
  have h0 := h
  obtain ⟨hlen, hsem, hle, hwg, hidx, hlt, hpend⟩ := h
  cases hs with
  | loopNext hm hi =>
    simp only [nextIdx, mainHolds, mainAdds, hm] at hsem hwg hidx hlt hpend
    exact ⟨hlen, by simpa [mainHolds] using hsem, hle, by simp [mainAdds, hwg], by simp [nextIdx, hidx],
      by simp [nextIdx, hi], by simpa [nextIdx] using hpend⟩
  | loopEnd hm hi =>
    simp only [nextIdx, mainHolds, mainAdds, hm] at hsem hwg hidx hlt hpend
    refine ⟨hlen, by simpa [mainHolds] using hsem, hle, by simp [mainAdds, hwg], by simp [nextIdx],
      by simp [mainAdds], ?_⟩
    intro j y hj
    have h1 := hpend j y hj
    have h2 := (List.getElem?_eq_some.1 hj).1
    simp only [nextIdx]
    rw [h1]
    omega
  | acquire hm hs =>
    simp only [nextIdx, mainHolds, mainAdds, hm] at hsem hwg hidx hlt hpend
    exact ⟨hlen, by simp [mainHolds, hsem], by dsimp only; omega, by simp [mainAdds, hwg],
      by simp [nextIdx, hidx], by simpa [nextIdx, mainAdds] using hlt, by simpa [nextIdx] using hpend⟩
  | spawn hm ht =>
    rename_i i t
    simp only [nextIdx, mainHolds, mainAdds, hm] at hsem hwg hidx hlt hpend
    have hp : t.pc = .pending := (hpend i t ht).2 (Nat.le_refl i)
    have h1 := sum_map_set holds s.tasks i t { t with pc := .spawned } ht
    have h2 := sum_map_set active s.tasks i t { t with pc := .spawned } ht
    simp only [holds, active, hp] at h1 h2
    have h3 := (List.getElem?_eq_some.1 ht).1
    refine ⟨by simpa using hlen, by dsimp only [mainHolds]; omega, hle, by dsimp only [mainAdds]; omega,
      by simp [nextIdx]; omega, by simp [mainAdds], ?_⟩
    intro j y hj
    simp only [nextIdx]
    rcases getElem?_set_imp hj with ⟨rfl, rfl⟩ | ⟨hne, hj'⟩
    · simp
    · rw [hpend j y hj']
      omega
  | wait hm hw =>
    simp only [nextIdx, mainHolds, mainAdds, hm] at hsem hwg hidx hlt hpend
    exact ⟨hlen, by simpa [mainHolds] using hsem, hle, by simpa [mainAdds] using hwg, by simp [nextIdx],
      by simp [mainAdds], by simpa [nextIdx] using hpend⟩
  | close hm hc =>
    simp only [nextIdx, mainHolds, mainAdds, hm] at hsem hwg hidx hlt hpend
    exact ⟨hlen, by simpa [mainHolds] using hsem, hle, by simpa [mainAdds] using hwg, by simp [nextIdx],
      by simp [mainAdds], by simpa [nextIdx] using hpend⟩
  | recv hm ha =>
    simp only [nextIdx, mainHolds, mainAdds, hm] at hsem hwg hidx hlt hpend
    exact ⟨hlen, by simpa [mainHolds] using hsem, hle, by simpa [mainAdds] using hwg, by simp [nextIdx],
      by simp [mainAdds], by simpa [nextIdx] using hpend⟩
  | enter hm ht hp =>
    exact countInv_task h0 ht (by simp [hp]) (by simp) (by simp [holds, hp]) (by simp [active, hp])
      rfl rfl rfl rfl
  | fetchNone hm ht hp hr =>
    exact countInv_task h0 ht (by simp [hp]) (by simp) (by simp [holds, hp]) (by simp [active, hp])
      rfl rfl rfl rfl
  | fetchSome hm ht hp hr =>
    exact countInv_task h0 ht (by simp [hp]) (by simp) (by simp [holds, hp]) (by simp [active, hp])
      rfl rfl rfl rfl
  | send hm ht hp hc hb =>
    exact countInv_task h0 ht (by simp [hp]) (by simp) (by simp [holds, hp]) (by simp [active, hp])
      rfl rfl rfl rfl
  | done hm ht hp hw =>
    rename_i i t
    have h1 := sum_map_set holds s.tasks i t { t with pc := .releasing, dones := t.dones + 1 } ht
    have h2 := sum_map_set active s.tasks i t { t with pc := .releasing, dones := t.dones + 1 } ht
    simp only [holds, active, hp] at h1 h2
    refine ⟨by simpa using hlen, by dsimp only; omega, hle, by dsimp only; omega,
      by simpa [nextIdx] using hidx, by simpa [nextIdx] using hlt, ?_⟩
    have := pend_set (x := { t with pc := .releasing, dones := t.dones + 1 }) ht (by simp [hp])
      (by simp) hpend
    simpa [nextIdx] using this
  | release hm ht hp hs =>
    rename_i i t
    have h1 := sum_map_set holds s.tasks i t { t with pc := .exited, releases := t.releases + 1 } ht
    have h2 := sum_map_set active s.tasks i t { t with pc := .exited, releases := t.releases + 1 } ht
    simp only [holds, active, hp] at h1 h2
    refine ⟨by simpa using hlen, by dsimp only; omega, by dsimp only; omega, by dsimp only; omega,
      by simpa [nextIdx] using hidx, by simpa [nextIdx] using hlt, ?_⟩
    have := pend_set (x := { t with pc := .exited, releases := t.releases + 1 }) ht (by simp [hp])
      (by simp) hpend
    simpa [nextIdx] using this
  | create hm ha => exact ⟨hlen, hsem, hle, hwg, hidx, hlt, hpend⟩
  | write hm ha ho => exact ⟨hlen, hsem, hle, hwg, hidx, hlt, hpend⟩
  | drained hm ha ho hc => exact ⟨hlen, hsem, hle, hwg, hidx, hlt, hpend⟩

theorem countInv_reach {cfg : Cfg} {s : St} (h : Reach cfg s) : CountInv cfg s := by
  induction h with
  | start => exact countInv_init cfg
  | next _ hs ih => exact countInv_step ih hs

/-! ## State of each task -/

theorem map_set_same {α β : Type} (f : α → β) :
    ∀ (l : List α) (i : Nat) (t x : α), l[i]? = some t → f x = f t →
      (l.set i x).map f = l.map f
  | [], i, t, x, h, _ => by simp at h
  | a :: l, 0, t, x, h, hx => by
    simp at h
    subst h
    simp [hx]
  | a :: l, i + 1, t, x, h, hx => by
    simp at h
    simp only [List.set_cons_succ, List.map_cons, map_set_same f l i t x h hx]

theorem taskInv_init (cfg : Cfg) : TaskInv cfg (init cfg) := by
  refine ⟨?_, ?_⟩
  · simp [init, Function.comp_def]
  · intro j y hj
    simp only [init, List.getElem?_map, Option.map_eq_some'] at hj
    obtain ⟨e, _, rfl⟩ := hj
    simp [TaskOk, sentBy, TaskPc.past]

theorem taskInv_same {cfg : Cfg} {s u : St} (h : TaskInv cfg s) (hu : u.tasks = s.tasks) :
    TaskInv cfg u :=
  ⟨hu ▸ h.entries, hu ▸ h.ok⟩

theorem taskInv_set {cfg : Cfg} {s u : St} {i : Nat} {t x : Task} (h : TaskInv cfg s)
    (ht : s.tasks[i]? = some t) (hu : u.tasks = s.tasks.set i x) (hd : x.domain = t.domain)
    (hr : x.result = t.result) (hx : TaskOk t → TaskOk x) : TaskInv cfg u := by
  refine ⟨?_, ?_⟩
  · rw [hu, map_set_same _ _ _ _ _ ht (by simp [hd, hr])]
    exact h.entries
  · intro j y hj
    rw [hu] at hj
    rcases getElem?_set_imp hj with ⟨_, rfl⟩ | ⟨_, hj'⟩
    · exact hx (h.ok i t ht)
    · exact h.ok j y hj'

theorem taskInv_step {cfg : Cfg} {s t : St} (hc : CountInv cfg s) (h : TaskInv cfg s)
    (hs : Step cfg s t) : TaskInv cfg t := by
  cases hs with
  | loopNext hm hi => exact taskInv_same h rfl
  | loopEnd hm hi => exact taskInv_same h rfl
  | acquire hm hs => exact taskInv_same h rfl
  | spawn hm ht =>
    have hp := (hc.pend _ _ ht).2 (by simp [nextIdx, hm])
    refine taskInv_set h ht rfl rfl rfl ?_
    intro h1
    simpa [TaskOk, sentBy, TaskPc.past, hp] using h1
  | wait hm hw => exact taskInv_same h rfl
  | close hm hc => exact taskInv_same h rfl
  | recv hm ha => exact taskInv_same h rfl
  | enter hm ht hp =>
    refine taskInv_set h ht rfl rfl rfl ?_
    intro h1
    simpa [TaskOk, sentBy, TaskPc.past, hp] using h1
  | fetchNone hm ht hp hr =>
    refine taskInv_set h ht rfl rfl rfl ?_
    intro h1
    simpa [TaskOk, sentBy, TaskPc.past, hp, hr] using h1
  | fetchSome hm ht hp hr =>
    refine taskInv_set h ht rfl rfl rfl ?_
    intro h1
    simp only [TaskOk, sentBy, TaskPc.past, hp] at h1
    simpa [TaskOk, sentBy, TaskPc.past, hr] using h1
  | send hm ht hp hc hb =>
    refine taskInv_set h ht rfl rfl rfl ?_
    intro h1
    simp only [TaskOk, sentBy, TaskPc.past, hp] at h1
    have h2 := h1.1 _ rfl
    simp only [TaskOk, sentBy, TaskPc.past]
    simp [h1.2.1, h1.2.2.1, h1.2.2.2, h2]
  | done hm ht hp hw =>
    refine taskInv_set h ht rfl rfl rfl ?_
    intro h1
    simp only [TaskOk, sentBy, TaskPc.past, hp] at h1
    simpa [TaskOk, sentBy, TaskPc.past] using h1.2
  | release hm ht hp hs =>
    refine taskInv_set h ht rfl rfl rfl ?_
    intro h1
    simp only [TaskOk, sentBy, TaskPc.past, hp] at h1
    simpa [TaskOk, sentBy, TaskPc.past] using h1.2
  | create hm ha => exact taskInv_same h rfl
  | write hm ha ho => exact taskInv_same h rfl
  | drained hm ha ho hc => exact taskInv_same h rfl

theorem taskInv_reach {cfg : Cfg} {s : St} (h : Reach cfg s) : TaskInv cfg s := by
  induction h with
  | start => exact taskInv_init cfg
  | next hr hs ih => exact taskInv_step (countInv_reach hr) ih hs

/-! ## Order of the moves of `main` -/

theorem mainInv_init (cfg : Cfg) : MainInv (init cfg) := by
  constructor <;> simp [init, MainPc.isFinished]

theorem mainInv_step {cfg : Cfg} {s t : St} (h : MainInv s) (hs : Step cfg s t) :
    MainInv t := by
  obtain ⟨h1, h2⟩ := h
  cases hs <;> constructor <;> simp_all [MainPc.isFinished]

theorem mainInv_reach {cfg : Cfg} {s : St} (h : Reach cfg s) : MainInv s := by
  induction h with
  | start => exact mainInv_init cfg
  | next _ hs ih => exact mainInv_step ih hs

/-! ## Lines in flight -/

theorem sentChunks_set_same :
    ∀ (l : List Task) (i : Nat) (t x : Task), l[i]? = some t → sentBy x = sentBy t →
      sentChunks (l.set i x) = sentChunks l
  | [], i, t, x, h, _ => by simp at h
  | a :: l, 0, t, x, h, hx => by
    simp at h
    subst h
    simp [sentChunks, hx]
  | a :: l, i + 1, t, x, h, hx => by
    simp at h
    simp only [List.set_cons_succ, sentChunks, sentChunks_set_same l i t x h hx]

theorem sentChunks_set_add :
    ∀ (l : List Task) (i : Nat) (t x : Task), l[i]? = some t → sentBy t = [] →
      (sentChunks (l.set i x)).Perm (sentBy x ++ sentChunks l)
  | [], i, t, x, h, _ => by simp at h
  | a :: l, 0, t, x, h, hx => by
    simp at h
    subst h
    simp [sentChunks, hx]
  | a :: l, i + 1, t, x, h, hx => by
    simp at h
    have ih := sentChunks_set_add l i t x h hx
    simp only [List.set_cons_succ, sentChunks]
    exact (List.Perm.append_left (sentBy a) ih).trans (List.perm_append_comm_assoc _ _ _)

theorem sentChunks_init :
    ∀ (l : List (String × FetchResult)),
      sentChunks (l.map fun e => (⟨e.1, e.2, .pending, 0, 0, []⟩ : Task)) = []
  | [] => rfl
  | e :: l => by
    simp [sentChunks, sentBy, TaskPc.past, sentChunks_init l]

theorem aggWrite_received (line : String) (a : Agg) :
    (aggWrite line a).received = a.received ++ [line] := by
  unfold aggWrite
  split <;> rfl

theorem flowInv_init (cfg : Cfg) : FlowInv (init cfg) := by
  constructor <;> simp [init, sentChunks_init, Agg.start]

theorem flowInv_same {s u : St} (h : FlowInv s) (h1 : u.sent = s.sent)
    (h2 : sentChunks u.tasks = sentChunks s.tasks) (h3 : u.agg.received = s.agg.received)
    (h4 : u.out = s.out) : FlowInv u :=
  ⟨by rw [h1, h2]; exact h.sent_eq, by rw [h2, h3, h4]; exact h.perm⟩

theorem flowInv_step {cfg : Cfg} {s t : St} (hc : CountInv cfg s) (hk : TaskInv cfg s)
    (h : FlowInv s) (hs : Step cfg s t) : FlowInv t := by
  cases hs with
  | loopNext hm hi => exact flowInv_same h rfl rfl rfl rfl
  | loopEnd hm hi => exact flowInv_same h rfl rfl rfl rfl
  | acquire hm hs => exact flowInv_same h rfl rfl rfl rfl
  | spawn hm ht =>
    have hp := (hc.pend _ _ ht).2 (by simp [nextIdx, hm])
    exact flowInv_same h rfl
      (sentChunks_set_same _ _ _ _ ht (by simp [sentBy, TaskPc.past, hp])) rfl rfl
  | wait hm hw => exact flowInv_same h rfl rfl rfl rfl
  | close hm hc => exact flowInv_same h rfl rfl rfl rfl
  | recv hm ha => exact flowInv_same h rfl rfl rfl rfl
  | enter hm ht hp =>
    exact flowInv_same h rfl
      (sentChunks_set_same _ _ _ _ ht (by simp [sentBy, TaskPc.past, hp])) rfl rfl
  | fetchNone hm ht hp hr =>
    exact flowInv_same h rfl
      (sentChunks_set_same _ _ _ _ ht (by simp [sentBy, TaskPc.past, hp, hr])) rfl rfl
  | fetchSome hm ht hp hr =>
    exact flowInv_same h rfl
      (sentChunks_set_same _ _ _ _ ht (by simp [sentBy, TaskPc.past, hp])) rfl rfl
  | send hm ht hp hc hb =>
    rename_i i t line
    have hr : scanDomain t.result = [line] := (hk.ok i t ht).1 line hp
    have hperm := sentChunks_set_add s.tasks i t
      { t with pc := .returning, sends := t.sends ++ [line] } ht
      (by simp [sentBy, TaskPc.past, hp])
    have hx : sentBy { t with pc := .returning, sends := t.sends ++ [line] } = [line] := by
      simp [sentBy, TaskPc.past, hr]
    rw [hx] at hperm
    refine ⟨?_, ?_⟩
    · have := hperm.length_eq
      have := h.sent_eq
      simp only [List.length_append, List.length_singleton] at *
      omega
    · refine List.Perm.trans ?_ hperm.symm
      have := h.perm
      dsimp only
      rw [← List.append_assoc]
      exact (List.perm_append_comm).trans (List.Perm.cons line this)
  | done hm ht hp hw =>
    exact flowInv_same h rfl
      (sentChunks_set_same _ _ _ _ ht (by simp [sentBy, TaskPc.past, hp])) rfl rfl
  | release hm ht hp hs =>
    exact flowInv_same h rfl
      (sentChunks_set_same _ _ _ _ ht (by simp [sentBy, TaskPc.past, hp])) rfl rfl
  | create hm ha =>
    refine flowInv_same h rfl rfl ?_ rfl
    dsimp only [aggCreate]
    split <;> rfl
  | write hm ha ho =>
    refine ⟨h.sent_eq, ?_⟩
    have := h.perm
    rw [ho] at this
    dsimp only
    rw [aggWrite_received]
    simpa using this
  | drained hm ha ho hc => exact flowInv_same h rfl rfl rfl rfl

theorem flowInv_reach {cfg : Cfg} {s : St} (h : Reach cfg s) : FlowInv s := by
  induction h with
  | start => exact flowInv_init cfg
  | next hr hs ih => exact flowInv_step (countInv_reach hr) (taskInv_reach hr) ih hs

/-! ## State of the aggregator -/

theorem join_append_singleton (l : List String) (x : String) :
    String.join (l ++ [x]) = String.join l ++ x := by
  simp [String.join, List.foldl_append]

theorem aggInv_init (cfg : Cfg) : AggInv cfg (init cfg) := by
  constructor <;> simp [init, Agg.start, MainPc.isFinished]

theorem aggInv_same {cfg : Cfg} {s u : St} (h : AggInv cfg s) (h1 : u.agg = s.agg)
    (h2 : u.closed = s.closed) (h3 : u.out = s.out) (h4 : u.main.isFinished = false)
    (h5 : s.main.isFinished = false) : AggInv cfg u := by
  obtain ⟨a1, a2, a3, a4, a5, a6, a7⟩ := h
  refine ⟨?_, ?_, ?_, ?_, ?_, ?_, ?_⟩
  · rw [h1]; exact a1
  · rw [h1]; exact a2
  · rw [h1, h2, h3]; exact a3
  · rw [h1, h4, ← h5]; exact a4
  · intro b hb
    simp [hb, MainPc.isFinished] at h4
  · rw [h1]; exact a6
  · rw [h1]; exact a7

theorem isFinished_false_of {s : St} {p : MainPc} (hm : s.main = p)
    (hp : p.isFinished = false) : s.main.isFinished = false := by
  rw [hm]; exact hp

theorem aggInv_step {cfg : Cfg} {s t : St} (h : AggInv cfg s) (hs : Step cfg s t) :
    AggInv cfg t := by
  cases hs with
  | loopNext hm hi => exact aggInv_same h rfl rfl rfl rfl (isFinished_false_of hm rfl)
  | loopEnd hm hi => exact aggInv_same h rfl rfl rfl rfl (isFinished_false_of hm rfl)
  | acquire hm hs => exact aggInv_same h rfl rfl rfl rfl (isFinished_false_of hm rfl)
  | spawn hm ht => exact aggInv_same h rfl rfl rfl rfl (isFinished_false_of hm rfl)
  | wait hm hw => exact aggInv_same h rfl rfl rfl rfl (isFinished_false_of hm rfl)
  | enter hm ht hp => exact aggInv_same h rfl rfl rfl hm hm
  | fetchNone hm ht hp hr => exact aggInv_same h rfl rfl rfl hm hm
  | fetchSome hm ht hp hr => exact aggInv_same h rfl rfl rfl hm hm
  | done hm ht hp hw => exact aggInv_same h rfl rfl rfl hm hm
  | release hm ht hp hs => exact aggInv_same h rfl rfl rfl hm hm
  | close hm hc =>
    obtain ⟨a1, a2, a3, a4, a5, a6, a7⟩ := h
    refine ⟨a1, a2, ?_, ?_, ?_, a6, a7⟩
    · intro b hb
      obtain ⟨b1, b2, b3⟩ := a3 b hb
      refine ⟨b1, b2, ?_⟩
      intro hb'
      have := (b3 hb').1
      simp [hc] at this
    · simpa [hm, MainPc.isFinished] using a4
    · intro b hb
      simp at hb
  | recv hm ha =>
    rename_i b
    obtain ⟨a1, a2, a3, a4, a5, a6, a7⟩ := h
    obtain ⟨b1, b2, b3⟩ := a3 b ha
    refine ⟨by simp, by simp, by simp, by simp [MainPc.isFinished], ?_, ?_, ?_⟩
    · intro b' hb'
      simp only [MainPc.finished.injEq] at hb'
      subst hb'
      exact ⟨by simp [b1], b2, fun hb => (b3 hb).2⟩
    · intro _
      exact a6 (by simp [ha])
    · exact a7
  | send hm ht hp hc hb =>
    obtain ⟨a1, a2, a3, a4, a5, a6, a7⟩ := h
    refine ⟨a1, a2, ?_, a4, ?_, a6, a7⟩
    · intro b hb
      obtain ⟨b1, b2, b3⟩ := a3 b hb
      refine ⟨b1, b2, ?_⟩
      intro hb'
      have := (b3 hb').1
      simp [hc] at this
    · intro b hb
      have : s.main = .finished b := hb
      simp [this, MainPc.isFinished] at hm
  | create hm ha =>
    obtain ⟨a1, a2, a3, a4, a5, a6, a7⟩ := h
    obtain ⟨c1, c2, c3, c4, c5⟩ := a1 ha
    have hfin : ∀ b, s.main ≠ .finished b := by
      intro b hb
      simp [hb, MainPc.isFinished] at hm
    by_cases hok : cfg.createOk = true
    · refine ⟨?_, ?_, ?_, ?_, ?_, ?_, ?_⟩ <;> simp only [aggCreate, hok, if_true]
      · simp
      · intro _
        exact ⟨trivial, c2, c4⟩
      · intro b hb
        simp at hb
      · simp [hm]
      · intro b hb
        exact absurd hb (hfin b)
      · simp
      · intro hw
        refine ⟨(a7 hw).1, c2, ?_⟩
        intro _
        simp [c3, String.join, goBytes_empty]
    · simp only [Bool.not_eq_true] at hok
      refine ⟨?_, ?_, ?_, ?_, ?_, ?_, ?_⟩ <;> simp only [aggCreate, hok]
      · simp
      · simp
      · intro b hb
        simp at hb
        subst hb
        simp [c1, c4]
      · simp [hm]
      · intro b hb
        exact absurd hb (hfin b)
      · simp [c1]
      · intro hw
        refine ⟨(a7 hw).1, c2, ?_⟩
        simp [c1]
  | write hm ha ho =>
    rename_i line rest
    obtain ⟨a1, a2, a3, a4, a5, a6, a7⟩ := h
    obtain ⟨r1, r2, r3⟩ := a2 ha
    have hfin : ∀ b, s.main ≠ .finished b := by
      intro b hb
      simp [hb, MainPc.isFinished] at hm
    have hce := a6 (by simp [ha])
    cases hw : s.agg.writes with
    | nil =>
      refine ⟨?_, ?_, ?_, ?_, ?_, ?_, ?_⟩ <;> simp only [aggWrite, hw]
      · simp [ha]
      · intro _
        exact ⟨r1, r2, r3⟩
      · intro b hb
        simp [ha] at hb
      · simp [hm, ha]
      · intro b hb
        exact absurd hb (hfin b)
      · intro _
        exact hce
      · intro hall
        refine ⟨by simp, r2, ?_⟩
        intro _
        rw [join_append_singleton, goBytes_append, (a7 hall).2.2 r1]
    | cons w ws =>
      cases w with
      | ok =>
        refine ⟨?_, ?_, ?_, ?_, ?_, ?_, ?_⟩ <;> simp only [aggWrite, hw]
        · simp [ha]
        · intro _
          exact ⟨r1, r2, r3⟩
        · intro b hb
          simp [ha] at hb
        · simp [hm, ha]
        · intro b hb
          exact absurd hb (hfin b)
        · intro _
          exact hce
        · intro hall
          have hws := (a7 hall).1
          rw [hw] at hws
          refine ⟨fun w hw' => hws w (by simp [hw']), r2, ?_⟩
          intro _
          rw [join_append_singleton, goBytes_append, (a7 hall).2.2 r1]
      | fail n =>
        refine ⟨?_, ?_, ?_, ?_, ?_, ?_, ?_⟩ <;> simp only [aggWrite, hw]
        · simp
        · simp
        · intro b hb
          simp at hb
          subst hb
          simp [r3]
        · simp [hm]
        · intro b hb
          exact absurd hb (hfin b)
        · intro _
          exact hce
        · intro hall
          have hws := (a7 hall).1
          rw [hw] at hws
          have := hws (.fail n) (by simp)
          simp at this
  | drained hm ha ho hc =>
    obtain ⟨a1, a2, a3, a4, a5, a6, a7⟩ := h
    obtain ⟨r1, r2, r3⟩ := a2 ha
    have hfin : ∀ b, s.main ≠ .finished b := by
      intro b hb
      simp [hb, MainPc.isFinished] at hm
    refine ⟨?_, ?_, ?_, ?_, ?_, ?_, ?_⟩ <;> simp only [aggClosed]
    · simp
    · simp
    · intro b hb
      simp at hb
      subst hb
      simp [r1, r2, r3, hc, ho]
    · simp [hm]
    · intro b hb
      exact absurd hb (hfin b)
    · intro _
      exact a6 (by simp [ha])
    · exact a7

theorem aggInv_reach {cfg : Cfg} {s : St} (h : Reach cfg s) : AggInv cfg s := by
  induction h with
  | start => exact aggInv_init cfg
  | next _ hs ih => exact aggInv_step ih hs

/-! ## Termination: every move uses up fuel -/

theorem aggFuel_aggWrite (line : String) (a : Agg) (ha : a.pc = .receiving) :
    aggFuel (aggWrite line a).pc ≤ aggFuel a.pc := by
  unfold aggWrite
  split <;> simp [ha, aggFuel]

theorem fuel_step {cfg : Cfg} {s t : St} (hs : Step cfg s t) : fuel t < fuel s := by
  cases hs with
  | loopNext hm hi => simp only [fuel, hm, mainFuel]; omega
  | loopEnd hm hi => simp only [fuel, hm, mainFuel]; omega
  | acquire hm hs => simp only [fuel, hm, mainFuel]; omega
  | spawn hm ht =>
    rename_i i t
    have h1 := sum_map_set taskFuel s.tasks i t { t with pc := .spawned } ht
    have h2 := (List.getElem?_eq_some.1 ht).1
    simp only [taskFuel] at h1
    simp only [fuel, hm, mainFuel, List.length_set]
    omega
  | wait hm hw => simp only [fuel, hm, mainFuel]; omega
  | close hm hc => simp only [fuel, hm, mainFuel]; omega
  | recv hm ha => simp only [fuel, hm, ha, mainFuel, aggFuel]; omega
  | enter hm ht hp =>
    rename_i i t
    have h1 := sum_map_set taskFuel s.tasks i t { t with pc := .fetching } ht
    simp only [taskFuel, hp] at h1
    simp only [fuel, List.length_set]
    omega
  | fetchNone hm ht hp hr =>
    rename_i i t
    have h1 := sum_map_set taskFuel s.tasks i t { t with pc := .returning } ht
    simp only [taskFuel, hp] at h1
    simp only [fuel, List.length_set]
    omega
  | fetchSome hm ht hp hr =>
    rename_i i t line
    have h1 := sum_map_set taskFuel s.tasks i t { t with pc := .sending line } ht
    simp only [taskFuel, hp] at h1
    simp only [fuel, List.length_set]
    omega
  | send hm ht hp hc hb =>
    rename_i i t line
    have h1 := sum_map_set taskFuel s.tasks i t
      { t with pc := .returning, sends := t.sends ++ [line] } ht
    simp only [taskFuel, hp] at h1
    simp only [fuel, List.length_set, List.length_append, List.length_singleton]
    omega
  | done hm ht hp hw =>
    rename_i i t
    have h1 := sum_map_set taskFuel s.tasks i t
      { t with pc := .releasing, dones := t.dones + 1 } ht
    simp only [taskFuel, hp] at h1
    simp only [fuel, List.length_set]
    omega
  | release hm ht hp hs =>
    rename_i i t
    have h1 := sum_map_set taskFuel s.tasks i t
      { t with pc := .exited, releases := t.releases + 1 } ht
    simp only [taskFuel, hp] at h1
    simp only [fuel, List.length_set]
    omega
  | create hm ha =>
    have : aggFuel (aggCreate cfg.createOk s.agg).pc < aggFuel s.agg.pc := by
      unfold aggCreate
      split <;> simp [ha, aggFuel]
    simp only [fuel]
    omega
  | write hm ha ho =>
    rename_i line rest
    have := aggFuel_aggWrite line s.agg ha
    simp only [fuel, ho, List.length_cons]
    omega
  | drained hm ha ho hc =>
    simp only [fuel, aggClosed, ha, aggFuel]
    omega

theorem run_length {cfg : Cfg} :
    ∀ (sched : List Action) (s t : St), run cfg sched s = some t →
      sched.length + fuel t ≤ fuel s
  | [], s, t, h => by
    simp [run] at h
    simp [h]
  | a :: as, s, t, h => by
    simp only [run] at h
    cases hstep : step cfg a s with
    | none => simp [hstep] at h
    | some u =>
      simp [hstep] at h
      have h1 := run_length as u t h
      have h2 := fuel_step (step_sound hstep)
      simp only [List.length_cons]
      omega

theorem fuel_init (cfg : Cfg) : fuel (init cfg) = 17 * cfg.entries.length + 9 := by
  have : ∀ (l : List (String × FetchResult)),
      ((l.map fun e => (⟨e.1, e.2, .pending, 0, 0, []⟩ : Task)).map taskFuel).sum = 7 * l.length := by
    intro l
    induction l with
    | nil => rfl
    | cons e l ih =>
      simp only [List.map_cons, List.sum_cons, List.length_cons, ih, taskFuel]
      omega
  simp only [fuel, init, this, mainFuel, aggFuel, Agg.start, List.length_map, List.length_nil]
  omega

/-! ## Progress: no goroutine waits for ever -/

theorem scanDomain_length_le (r : FetchResult) : (scanDomain r).length ≤ 1 := by
  unfold scanDomain
  split
  · simp
  · split <;> simp

theorem sentChunks_length_add :
    ∀ (l : List Task), (sentChunks l).length + (l.map atSend).sum ≤ l.length
  | [] => by simp [sentChunks]
  | a :: l => by
    have ih := sentChunks_length_add l
    have ha : (sentBy a).length + atSend a ≤ 1 := by
      have := scanDomain_length_le a.result
      unfold sentBy atSend
      cases a.pc <;> simp [TaskPc.past] <;> omega
    simp only [sentChunks, List.length_append, List.map_cons, List.sum_cons, List.length_cons]
    omega

/-- The buffer of `output` has room whenever a task is at its send. -/
theorem room_at_send {cfg : Cfg} {s : St} (hc : CountInv cfg s) (hf : FlowInv s) {i : Nat}
    {t : Task} {line : String} (ht : s.tasks[i]? = some t) (hp : t.pc = .sending line) :
    s.out.length < cfg.entries.length := by
  have h1 := sentChunks_length_add s.tasks
  have h2 := le_sum_map atSend s.tasks i t ht
  have h3 := hf.perm.length_eq
  have h4 := hc.len
  simp only [atSend, hp] at h2
  simp only [List.length_append] at h3
  omega

/-- The channel `output` is open whenever a task is counted by `wg`. -/
theorem open_while_active {cfg : Cfg} {s : St} (hc : CountInv cfg s) (hm : MainInv s) {i : Nat}
    {t : Task} (ht : s.tasks[i]? = some t) (ha : active t = 1) : s.closed = false := by
  cases hcl : s.closed with
  | false => rfl
  | true =>
    have h1 := hm.late (Or.inr (hm.closed_iff.1 hcl))
    have h2 := le_sum_map active s.tasks i t ht
    have h3 := hc.wg_eq
    omega

/-- A task that holds a slot of `semaphore` can make its next move. -/
theorem task_can_move {cfg : Cfg} {s : St} (hc : CountInv cfg s) (hf : FlowInv s)
    (hm : MainInv s) (hfin : s.main.isFinished = false) {i : Nat} {t : Task}
    (ht : s.tasks[i]? = some t) (hh : holds t = 1) : ∃ u, step cfg (.task i) s = some u := by
  have hstep : step cfg (.task i) s = stepTask cfg i s := by
    unfold step
    cases hs : s.main <;> simp_all [MainPc.isFinished]
  rw [hstep]
  unfold stepTask
  simp only [ht]
  cases hp : t.pc with
  | pending => simp [holds, hp] at hh
  | exited => simp [holds, hp] at hh
  | spawned => exact ⟨_, rfl⟩
  | fetching =>
    dsimp only
    split
    · exact ⟨_, rfl⟩
    · split <;> exact ⟨_, rfl⟩
  | sending line =>
    have h1 := open_while_active hc hm ht (by simp [active, hp])
    have h2 := room_at_send hc hf ht hp
    simp [h1, h2]
  | returning =>
    have h1 := le_sum_map active s.tasks i t ht
    have h2 := hc.wg_eq
    simp only [active, hp] at h1
    have h3 : s.wg ≠ 0 := by omega
    simp [h3]
  | releasing =>
    have h1 := le_sum_map holds s.tasks i t ht
    have h2 := hc.sem_eq
    simp only [holds, hp] at h1
    have h3 : s.sem ≠ 0 := by omega
    simp [h3]

theorem holds_of_pos {t : Task} (h : 0 < holds t) : holds t = 1 := by
  unfold holds at *
  split at h <;> simp_all

theorem holds_of_active {t : Task} (h : 0 < active t) : holds t = 1 := by
  unfold holds
  unfold active at h
  cases hp : t.pc <;> simp_all

/-- While `main` waits at `wg.Wait()`, some task can move. -/
theorem task_moves_at_wait {cfg : Cfg} {s : St} (hc : CountInv cfg s) (hf : FlowInv s)
    (hm : MainInv s) (hw : s.main = .wait) (hwg : s.wg ≠ 0) :
    ∃ i u, step cfg (.task i) s = some u := by
  have h1 := hc.wg_eq
  simp only [hw, mainAdds] at h1
  obtain ⟨i, t, hi, ht⟩ := exists_of_sum_map_pos active s.tasks (by omega)
  exact ⟨i, task_can_move hc hf hm (by simp [hw, MainPc.isFinished]) hi (holds_of_active ht)⟩

/-- With at least one slot in `semaphore`, some goroutine can move as long as
`main` has not returned. -/
theorem can_move {cfg : Cfg} {s : St} (hN : 1 ≤ cfg.threads) (hc : CountInv cfg s)
    (hf : FlowInv s) (hm : MainInv s) (ha : AggInv cfg s) (hfin : s.main.isFinished = false) :
    ∃ a u, step cfg a s = some u := by
  have hmain : step cfg .main s = stepMain cfg s := by
    unfold step
    cases hs : s.main <;> simp_all [MainPc.isFinished]
  have hagg : step cfg .agg s = stepAgg cfg s := by
    unfold step
    cases hs : s.main <;> simp_all [MainPc.isFinished]
  cases hp : s.main with
  | loop i =>
    refine ⟨.main, ?_⟩
    rw [hmain]
    unfold stepMain
    simp only [hp]
    split <;> exact ⟨_, rfl⟩
  | acquire i =>
    by_cases hs : s.sem < cfg.threads
    · refine ⟨.main, ?_⟩
      rw [hmain]
      unfold stepMain
      simp only [hp, hs, if_true]
      exact ⟨_, rfl⟩
    · have h1 := hc.sem_eq
      simp only [hp, mainHolds] at h1
      obtain ⟨j, t, hj, ht⟩ := exists_of_sum_map_pos holds s.tasks (by omega)
      exact ⟨.task j, task_can_move hc hf hm hfin hj (holds_of_pos ht)⟩
  | spawn i =>
    have h1 := hc.idx_lt (by simp [hp, mainAdds])
    simp only [nextIdx, hp] at h1
    refine ⟨.main, ?_⟩
    rw [hmain]
    unfold stepMain
    simp only [hp, List.getElem?_eq_getElem h1]
    exact ⟨_, rfl⟩
  | wait =>
    by_cases hw : s.wg = 0
    · refine ⟨.main, ?_⟩
      rw [hmain]
      unfold stepMain
      simp only [hp, hw, if_true]
      exact ⟨_, rfl⟩
    · obtain ⟨j, u, hu⟩ := task_moves_at_wait hc hf hm hp hw
      exact ⟨.task j, u, hu⟩
  | closing =>
    have h1 : s.closed = false := by
      cases hcl : s.closed with
      | false => rfl
      | true =>
        have := hm.closed_iff.1 hcl
        simp [hp, MainPc.isFinished] at this
    refine ⟨.main, ?_⟩
    rw [hmain]
    unfold stepMain
    simp only [hp, h1]
    exact ⟨_, rfl⟩
  | recv =>
    have hcl : s.closed = true := hm.closed_iff.2 (Or.inl hp)
    cases hpc : s.agg.pc with
    | creating =>
      refine ⟨.agg, ?_⟩
      rw [hagg]
      unfold stepAgg
      simp only [hpc]
      exact ⟨_, rfl⟩
    | receiving =>
      refine ⟨.agg, ?_⟩
      rw [hagg]
      unfold stepAgg
      simp only [hpc]
      cases ho : s.out with
      | nil => simp [hcl]
      | cons line rest => simp
    | signalling b =>
      refine ⟨.main, ?_⟩
      rw [hmain]
      unfold stepMain
      simp only [hp, hpc]
      exact ⟨_, rfl⟩
    | returned =>
      have := ha.returned.1 hpc
      simp [hp, MainPc.isFinished] at this
  | finished b => simp [hp, MainPc.isFinished] at hfin

/-! ## Properties of the pipeline -/

theorem reach_of_run {cfg : Cfg} {sched : List Action} {s : St}
    (h : run cfg sched (init cfg) = some s) : Reach cfg s :=
  reach_run sched (init cfg) s Reach.start h

theorem sum_map_le_sum_map {α : Type} (f g : α → Nat) (h : ∀ x, f x ≤ g x) :
    ∀ (l : List α), (l.map f).sum ≤ (l.map g).sum
  | [] => by simp
  | a :: l => by
    have := sum_map_le_sum_map f g h l
    have := h a
    simp only [List.map_cons, List.sum_cons]
    omega

theorem add_le_sum_map {α : Type} (f : α → Nat) :
    ∀ (l : List α) (i j : Nat) (a b : α), i ≠ j → l[i]? = some a → l[j]? = some b →
      f a + f b ≤ (l.map f).sum
  | [], i, j, a, b, _, h, _ => by simp at h
  | x :: l, 0, 0, a, b, hij, _, _ => absurd rfl hij
  | x :: l, 0, j + 1, a, b, _, hi, hj => by
    simp at hi hj
    subst hi
    have := le_sum_map f l j b hj
    simp only [List.map_cons, List.sum_cons]
    omega
  | x :: l, i + 1, 0, a, b, _, hi, hj => by
    simp at hi hj
    subst hj
    have := le_sum_map f l i a hi
    simp only [List.map_cons, List.sum_cons]
    omega
  | x :: l, i + 1, j + 1, a, b, hij, hi, hj => by
    simp at hi hj
    have := add_le_sum_map f l i j a b (by omega) hi hj
    simp only [List.map_cons, List.sum_cons]
    omega

theorem inScan_le_holds (t : Task) : inScan t ≤ holds t := by
  unfold inScan holds
  cases t.pc <;> simp

/-- C2: for every domain list, every thread count and every schedule, in every
state the program reaches the number of tasks that have started `scanDomain`
and not finished it is at most the thread count; with one thread, two tasks
inside `scanDomain` at the same moment are the same task. -/
theorem scan_tasks_at_most_threads (cfg : Cfg) (sched : List Action) (s : St)
    (h : run cfg sched (init cfg) = some s) :
    running s ≤ cfg.threads ∧
      (cfg.threads = 1 → ∀ (i j : Nat) (a b : Task), s.tasks[i]? = some a →
        s.tasks[j]? = some b → inScan a = 1 → inScan b = 1 → i = j) := by
  have hc := countInv_reach (reach_of_run h)
  have h1 := sum_map_le_sum_map inScan holds inScan_le_holds s.tasks
  have h2 := hc.sem_eq
  have h3 := hc.sem_le
  have hrun : running s ≤ cfg.threads := by
    unfold running
    omega
  refine ⟨hrun, ?_⟩
  intro hN i j a b hi hj ha hb
  by_contra hij
  have := add_le_sum_map inScan s.tasks i j a b hij hi hj
  unfold running at hrun
  omega

/-- In the scenario of three domains with two threads, a schedule puts two tasks
inside `scanDomain`, and no more than the thread count. -/
theorem scan_tasks_at_most_threads_witness :
    ∃ s, run scenario scheduleTwoInScan (init scenario) = some s ∧ running s = 2 ∧
      running s ≤ scenario.threads :=
  ⟨_, rfl, rfl, (scan_tasks_at_most_threads scenario scheduleTwoInScan _ rfl).1⟩

/-- With one thread, while the first task is inside `scanDomain` the loop of
`main` cannot take a second slot. -/
theorem one_thread_blocks_second_acquire :
    (∃ s, run scenarioNoSink [.main, .main, .main, .task 0] (init scenarioNoSink) = some s ∧
        running s = 1) ∧
      run scenarioNoSink [.main, .main, .main, .task 0, .main, .main] (init scenarioNoSink)
        = none :=
  ⟨⟨_, rfl, rfl⟩, rfl⟩

/-- C8: in every state the program reaches, whatever the fetch of a task
returned (an error, no subdomain, or some subdomains), a task that has ended
has called `wg.Done()` exactly once and received from `semaphore` exactly
once, and no task has done either more than once; when all tasks have ended
the counter of `wg` is 0 and `semaphore` holds no value. -/
theorem task_releases_once (cfg : Cfg) (sched : List Action) (s : St)
    (h : run cfg sched (init cfg) = some s) :
    (∀ (i : Nat) (t : Task), s.tasks[i]? = some t → t.pc = .exited →
        t.dones = 1 ∧ t.releases = 1) ∧
      (∀ (i : Nat) (t : Task), s.tasks[i]? = some t → t.dones ≤ 1 ∧ t.releases ≤ 1) ∧
      ((∀ t ∈ s.tasks, t.pc = .exited) → s.wg = 0 ∧ s.sem = 0) := by
  have hr := reach_of_run h
  have hc := countInv_reach hr
  have hk := taskInv_reach hr
  refine ⟨?_, ?_, ?_⟩
  · intro i t ht hp
    have := hk.ok i t ht
    simp only [TaskOk, hp] at this
    exact ⟨by simpa using this.2.1, by simpa using this.2.2.1⟩
  · intro i t ht
    have := hk.ok i t ht
    obtain ⟨_, h1, h2, _⟩ := this
    rw [h1, h2]
    constructor <;> split <;> omega
  · intro hall
    have ha : (s.tasks.map active).sum = 0 := by
      have : ∀ (l : List Task), (∀ t ∈ l, t.pc = .exited) → (l.map active).sum = 0 := by
        intro l
        induction l with
        | nil => simp
        | cons a l ih =>
          intro hl
          have h1 := hl a (by simp)
          have h2 := ih (fun t ht => hl t (by simp [ht]))
          simp only [List.map_cons, List.sum_cons, h2, active, h1]
      exact this s.tasks hall
    have hh : (s.tasks.map holds).sum = 0 := by
      have : ∀ (l : List Task), (∀ t ∈ l, t.pc = .exited) → (l.map holds).sum = 0 := by
        intro l
        induction l with
        | nil => simp
        | cons a l ih =>
          intro hl
          have h1 := hl a (by simp)
          have h2 := ih (fun t ht => hl t (by simp [ht]))
          simp only [List.map_cons, List.sum_cons, h2, holds, h1]
      exact this s.tasks hall
    have hm : mainAdds s.main = 0 := by
      by_contra hne
      have h1 : mainAdds s.main = 1 := by
        unfold mainAdds at *
        split at hne <;> simp_all
      have h2 := hc.idx_lt h1
      have h3 := (hc.pend (nextIdx s) _ (List.getElem?_eq_getElem h2)).2 (Nat.le_refl _)
      have h4 := hall _ (List.getElem_mem h2)
      rw [h4] at h3
      cases h3
    have hm2 : mainHolds s.main = 0 := by
      unfold mainAdds at hm
      unfold mainHolds
      split at hm <;> simp_all
    have h1 := hc.wg_eq
    have h2 := hc.sem_eq
    omega

/-- In the scenario of three domains the three tasks end on the three paths of
`scanDomain`, each having called `wg.Done()` and released its slot once. -/
theorem task_releases_once_witness :
    ∃ s, run scenario scheduleTasksDone (init scenario) = some s ∧
      (∀ t ∈ s.tasks, t.pc = .exited ∧ t.dones = 1 ∧ t.releases = 1) ∧ s.wg = 0 ∧ s.sem = 0 :=
  ⟨_, rfl, by decide,
    (task_releases_once scenario scheduleTasksDone _ rfl).2.2 (by decide)⟩

theorem not_finished_of_active {cfg : Cfg} {s : St} (hc : CountInv cfg s) (hm : MainInv s)
    {i : Nat} {t : Task} (ht : s.tasks[i]? = some t) (ha : active t = 1) :
    s.main.isFinished = false := by
  cases hf : s.main.isFinished with
  | false => rfl
  | true =>
    have h1 := hm.late (Or.inr (Or.inr hf))
    have h2 := le_sum_map active s.tasks i t ht
    have h3 := hc.wg_eq
    omega

/-- C7: for every domain list, every assignment of fetch results, every
behaviour of the output file and every schedule, in every state the program
reaches the number of sends made on `output` is at most `len(domains)`, the
capacity of the channel; a task at its send finds room in the buffer and can
make the send, whatever the aggregator has read; while `main` waits at
`wg.Wait()` with a non-zero counter some task can move; and the run has a
bounded number of moves, so that wait ends. -/
theorem output_send_never_blocks (cfg : Cfg) (sched : List Action) (s : St)
    (h : run cfg sched (init cfg) = some s) :
    s.sent ≤ cfg.entries.length ∧ s.out.length ≤ s.sent ∧
      (∀ (i : Nat) (t : Task) (line : String), s.tasks[i]? = some t → t.pc = .sending line →
        s.out.length < cfg.entries.length ∧ ∃ u, step cfg (.task i) s = some u) ∧
      (s.main = .wait → s.wg ≠ 0 → ∃ i u, step cfg (.task i) s = some u) ∧
      sched.length + fuel s ≤ 17 * cfg.entries.length + 9 := by
  have hr := reach_of_run h
  have hc := countInv_reach hr
  have hf := flowInv_reach hr
  have hm := mainInv_reach hr
  have h1 := sentChunks_length_add s.tasks
  have h2 := hf.sent_eq
  have h3 := hf.perm.length_eq
  have h4 := hc.len
  simp only [List.length_append] at h3
  refine ⟨by omega, by omega, ?_, ?_, ?_⟩
  · intro i t line ht hp
    have ha : active t = 1 := by simp [active, hp]
    exact ⟨room_at_send hc hf ht hp,
      task_can_move hc hf hm (not_finished_of_active hc hm ht ha) ht (by simp [holds, hp])⟩
  · intro hw hwg
    exact task_moves_at_wait hc hf hm hw hwg
  · have := run_length sched (init cfg) s h
    rw [fuel_init] at this
    exact this

/-- With an output file that cannot be created the aggregator receives nothing,
and both tasks still make their send. -/
theorem output_send_never_blocks_witness :
    ∃ s, run scenarioNoSink scheduleNoSinkTasks (init scenarioNoSink) = some s ∧
      s.agg.received = [] ∧ s.out = ["x.a.com\n", "y.b.com\n"] ∧ s.sent = 2 ∧
      s.sent ≤ scenarioNoSink.entries.length :=
  ⟨_, rfl, rfl, by decide, rfl,
    (output_send_never_blocks scenarioNoSink scheduleNoSinkTasks _ rfl).1⟩

/-- From every state the program reaches, some schedule leads to the return
of `main`. -/
theorem finish_reachable {cfg : Cfg} (hN : 1 ≤ cfg.threads) :
    ∀ (n : Nat) (s : St), fuel s ≤ n → Reach cfg s →
      ∃ rest u b, run cfg rest s = some u ∧ u.main = .finished b := by
  intro n
  induction n with
  | zero =>
    intro s hn hr
    cases hp : s.main with
    | finished b => exact ⟨[], s, b, rfl, hp⟩
    | _ =>
      obtain ⟨a, u, hu⟩ := can_move hN (countInv_reach hr) (flowInv_reach hr)
        (mainInv_reach hr) (aggInv_reach hr) (by simp [hp, MainPc.isFinished])
      have := fuel_step (step_sound hu)
      omega
  | succ n ih =>
    intro s hn hr
    cases hp : s.main with
    | finished b => exact ⟨[], s, b, rfl, hp⟩
    | _ =>
      obtain ⟨a, u, hu⟩ := can_move hN (countInv_reach hr) (flowInv_reach hr)
        (mainInv_reach hr) (aggInv_reach hr) (by simp [hp, MainPc.isFinished])
      have hlt := fuel_step (step_sound hu)
      obtain ⟨rest, v, b, hv, hb⟩ := ih u (by omega) (Reach.next hr (step_sound hu))
      exact ⟨a :: rest, v, b, by simp [run, hu, hv], hb⟩

/-- C6: for every domain list, every assignment of fetch results (every fetch
failing included), every thread count of at least 1 and every schedule: the
run has a bounded number of moves; as long as `main` has not returned some
goroutine can move, and some continuation of the schedule ends with `main`
past `close(output)` and `<-done`; and when `main` is past `<-done` the channel
is closed and the value of `success` is the one value sent on `done`, which is
true exactly when the file was created and no write failed, so it is true
whenever creation succeeds and all writes succeed, whatever the fetches did. -/
theorem run_reaches_result (cfg : Cfg) (sched : List Action) (s : St)
    (hN : 1 ≤ cfg.threads) (h : run cfg sched (init cfg) = some s) :
    sched.length + fuel s ≤ 17 * cfg.entries.length + 9 ∧
      (s.main.isFinished = false → ∃ a u, step cfg a s = some u) ∧
      (∃ rest u b, run cfg rest s = some u ∧ u.main = .finished b) ∧
      (∀ b, s.main = .finished b →
        s.closed = true ∧ s.agg.signals = [b] ∧
          (b = true ↔ cfg.createOk = true ∧ s.agg.failedWrites = 0) ∧
          (cfg.createOk = true → (∀ w ∈ cfg.writes, w = WriteOutcome.ok) → b = true)) := by
  have hr := reach_of_run h
  have hc := countInv_reach hr
  have hf := flowInv_reach hr
  have hm := mainInv_reach hr
  have ha := aggInv_reach hr
  refine ⟨?_, ?_, ?_, ?_⟩
  · have := run_length sched (init cfg) s h
    rw [fuel_init] at this
    exact this
  · intro hfin
    exact can_move hN hc hf hm ha hfin
  · exact finish_reachable hN (fuel s) s (Nat.le_refl _) hr
  · intro b hb
    have hfin : s.main.isFinished = true := by simp [hb, MainPc.isFinished]
    obtain ⟨h1, h2, _⟩ := ha.finished b hb
    have h3 := ha.createdEq (by simp [ha.returned.2 hfin])
    rw [h3] at h2
    refine ⟨hm.closed_iff.2 (Or.inr hfin), h1, h2, ?_⟩
    intro hok hw
    exact h2.2 ⟨hok, (ha.clean hw).2.1⟩

/-- With an output file that cannot be created `main` still closes `output`,
reads `done` and gets `false`. -/
theorem run_reaches_result_witness :
    ∃ s, run scenarioNoSink scheduleNoSinkFull (init scenarioNoSink) = some s ∧
      s.main = .finished false ∧ s.closed = true ∧ s.agg.signals = [false] :=
  ⟨_, rfl, rfl,
    ((run_reaches_result scenarioNoSink scheduleNoSinkFull _ (by decide) rfl).2.2.2
      false rfl).1,
    ((run_reaches_result scenarioNoSink scheduleNoSinkFull _ (by decide) rfl).2.2.2
      false rfl).2.1⟩

theorem sentChunks_all_past :
    ∀ (l : List Task), (∀ t ∈ l, t.pc.past = true) →
      sentChunks l = expectedChunks (l.map fun t => (t.domain, t.result))
  | [], _ => rfl
  | a :: l, h => by
    have ih := sentChunks_all_past l (fun t ht => h t (by simp [ht]))
    have ha := h a (by simp)
    simp only [sentChunks, sentBy, ha, if_true, ih, expectedChunks, List.map_cons,
      List.filterMap_cons]
    cases hr : a.result with
    | error e => simp [scanDomain]
    | ok subs =>
      by_cases hs : subs = []
      · simp [scanDomain, hs]
      · have : subs.length > 0 := List.length_pos.2 hs
        simp [scanDomain, hs, this, chunk]

/-- Once `main` is past `wg.Wait()` with the channel closed, every task is
past its send. -/
theorem all_past_of_finished {cfg : Cfg} {s : St} (hc : CountInv cfg s) (hm : MainInv s)
    (hfin : s.main.isFinished = true) : ∀ t ∈ s.tasks, t.pc.past = true := by
  intro t ht
  obtain ⟨i, hi, rfl⟩ := List.getElem_of_mem ht
  have hi' : s.tasks[i]? = some s.tasks[i] := List.getElem?_eq_getElem hi
  have h1 := hm.late (Or.inr (Or.inr hfin))
  have h2 := le_sum_map active s.tasks i _ hi'
  have h3 := hc.wg_eq
  have h4 : active s.tasks[i] = 0 := by omega
  have h5 := hc.pend i _ hi'
  have h6 : nextIdx s = s.tasks.length := by
    unfold nextIdx
    cases hp : s.main <;> simp_all [MainPc.isFinished]
  have h7 : s.tasks[i].pc ≠ .pending := by
    intro hp
    have := h5.1 hp
    omega
  unfold active at h4
  cases hp : s.tasks[i].pc <;> simp_all [TaskPc.past]

/-- C1: for every domain list, every assignment of fetch results and every
thread count of at least 1, when the output file is created and every write
succeeds: some schedule runs `main` to its return; and for every schedule
that does, the value of `success` is true and the output file holds the
concatenation of a permutation of the expected chunks, one for each entry
whose fetch returned a non-empty result and none for the other entries,
whatever the file held before. -/
theorem output_file_holds_chunks (cfg : Cfg) (hN : 1 ≤ cfg.threads)
    (hok : cfg.createOk = true) (hw : ∀ w ∈ cfg.writes, w = WriteOutcome.ok) :
    (∃ sched s b, run cfg sched (init cfg) = some s ∧ s.main = .finished b) ∧
      ∀ (sched : List Action) (s : St) (b : Bool), run cfg sched (init cfg) = some s →
        s.main = .finished b →
        b = true ∧ ∃ p : List String,
          p.Perm (expectedChunks cfg.entries) ∧ s.agg.file = goBytes (String.join p) := by
  refine ⟨finish_reachable hN _ _ (Nat.le_refl _) Reach.start, ?_⟩
  intro sched s b h hb
  have hr := reach_of_run h
  have hc := countInv_reach hr
  have hf := flowInv_reach hr
  have hm := mainInv_reach hr
  have ha := aggInv_reach hr
  have hk := taskInv_reach hr
  have hfin : s.main.isFinished = true := by simp [hb, MainPc.isFinished]
  obtain ⟨_, h2, h3⟩ := ha.finished b hb
  have h4 := ha.createdEq (by simp [ha.returned.2 hfin])
  obtain ⟨_, h5, h6⟩ := ha.clean hw
  have hbt : b = true := h2.2 ⟨by rw [h4, hok], h5⟩
  refine ⟨hbt, s.agg.received, ?_, h6 (by rw [h4, hok])⟩
  have h7 := hf.perm
  rw [h3 hbt, List.append_nil, sentChunks_all_past _ (all_past_of_finished hc hm hfin),
    hk.entries] at h7
  exact h7

/-- The scenario of three domains leaves the two lines of `a.com` in the file. -/
theorem output_file_holds_chunks_witness :
    (∃ s, run scenario scheduleFull (init scenario) = some s ∧ s.main = .finished true ∧
        s.agg.file = goBytes "x.a.com\ny.a.com\n") ∧
      expectedChunks scenario.entries = ["x.a.com\ny.a.com\n"] ∧
      ∃ p : List String, p.Perm (expectedChunks scenario.entries) ∧
        goBytes "x.a.com\ny.a.com\n" = goBytes (String.join p) :=
  ⟨⟨_, rfl, rfl, by decide⟩, by decide,
    ((output_file_holds_chunks scenario (by decide) rfl (by decide)).2 scheduleFull _ true
      rfl rfl).2⟩

/-- C3: in every state the program reaches, a task has sent at most one line
on `output`, and a task whose `scanDomain` call has returned has sent exactly
the sequence `scanDomain` computes from its fetch result: the one line
`strings.Join(subdomains, "\n") + "\n"` when the fetch returned no error and
a non-empty list, and nothing when it returned an error or an empty list. -/
theorem scanDomain_sends (cfg : Cfg) (sched : List Action) (s : St)
    (h : run cfg sched (init cfg) = some s) :
    s.tasks.map (fun t => (t.domain, t.result)) = cfg.entries ∧
      ∀ (i : Nat) (t : Task), s.tasks[i]? = some t →
        t.sends.length ≤ 1 ∧
          (t.pc = .releasing ∨ t.pc = .exited →
            t.sends = scanDomain t.result ∧
              (∀ subdomains, t.result = .ok subdomains → subdomains ≠ [] →
                t.sends = [stringsJoin subdomains "\n" ++ "\n"]) ∧
              (t.result = .ok [] → t.sends = []) ∧
              (∀ e, t.result = .error e → t.sends = [])) := by
  have hk := taskInv_reach (reach_of_run h)
  refine ⟨hk.entries, ?_⟩
  intro i t ht
  obtain ⟨_, _, _, h4⟩ := hk.ok i t ht
  refine ⟨?_, ?_⟩
  · rw [h4]
    unfold sentBy
    split
    · exact scanDomain_length_le _
    · simp
  · intro hp
    have hpast : t.pc.past = true := by
      rcases hp with hp | hp <;> simp [hp, TaskPc.past]
    have h5 : t.sends = scanDomain t.result := by
      rw [h4]
      simp [sentBy, hpast]
    refine ⟨h5, ?_, ?_, ?_⟩
    · intro subs hr hne
      have : subs.length > 0 := List.length_pos.2 hne
      rw [h5, hr]
      simp [scanDomain, this, chunk]
    · intro hr
      rw [h5, hr]
      simp [scanDomain]
    · intro e hr
      rw [h5, hr]
      simp [scanDomain]

/-- In the scenario of three domains only the task of `a.com` has sent a line. -/
theorem scanDomain_sends_witness :
    ∃ s, run scenario scheduleTasksDone (init scenario) = some s ∧
      s.tasks.map (fun t => t.sends) = [["x.a.com\ny.a.com\n"], [], []] ∧
      s.tasks.map (fun t => (t.domain, t.result)) = scenario.entries :=
  ⟨_, rfl, by decide, (scanDomain_sends scenario scheduleTasksDone _ rfl).1⟩

/-! ## The aggregator as a function of the lines it is delivered -/

theorem foldl_append_eq (l : List String) :
    ∀ (acc : String), l.foldl (fun r s => r ++ s) acc = acc ++ l.foldl (fun r s => r ++ s) "" := by
  induction l with
  | nil => intro acc; simp
  | cons x l ih =>
    intro acc
    simp only [List.foldl_cons]
    rw [ih (acc ++ x), ih ("" ++ x)]
    simp [String.append_assoc]

theorem join_cons (x : String) (l : List String) :
    String.join (x :: l) = x ++ String.join l := by
  simp only [String.join, List.foldl_cons]
  rw [foldl_append_eq]
  simp

theorem aggSignal_file (a : Agg) : (aggSignal a).file = a.file := by
  unfold aggSignal
  split <;> rfl

theorem aggSignal_received (a : Agg) : (aggSignal a).received = a.received := by
  unfold aggSignal
  split <;> rfl


/-- When no attempted write fails, the loop appends every line. -/
theorem aggLoop_all_ok :
    ∀ (output : List String) (a : Agg), a.pc = .receiving →
      (∀ w ∈ a.writes.take output.length, w = WriteOutcome.ok) →
      (aggLoop output a).file = a.file ++ goBytes (String.join output) ∧
        (aggLoop output a).received = a.received ++ output ∧
        (aggLoop output a).pc = .signalling true ∧
        (aggLoop output a).signals = a.signals ∧
        (aggLoop output a).failedWrites = a.failedWrites
  | [], a, _, _ => by simp [aggLoop, aggClosed, String.join, goBytes_empty]
  | line :: rest, a, hp, hw => by
    cases hws : a.writes with
    | nil =>
      have ih := aggLoop_all_ok rest
        { a with file := a.file ++ goBytes line, received := a.received ++ [line] } hp
        (by simp [hws])
      simp only [hp, hws] at ih
      simp only [aggLoop, aggWrite, hws, hp, if_true, join_cons, goBytes_append]
      simp [ih, List.append_assoc]
    | cons w ws =>
      have hw0 : w = .ok := hw w (by simp [hws])
      subst hw0
      have ih := aggLoop_all_ok rest
        { a with file := a.file ++ goBytes line, received := a.received ++ [line], writes := ws }
        hp (by
          intro w hw'
          exact hw w (by simp [hws, hw']))
      simp only [hp, hws] at ih
      simp only [aggLoop, aggWrite, hws, hp, if_true, join_cons, goBytes_append]
      simp [ih, List.append_assoc]

/-- When the write of line `k` is the first to fail, after `n` bytes, the loop
stops there. -/
theorem aggLoop_fail :
    ∀ (output : List String) (a : Agg) (k n : Nat) (line : String), a.pc = .receiving →
      (∀ w ∈ a.writes.take k, w = WriteOutcome.ok) → a.writes[k]? = some (.fail n) →
      output[k]? = some line →
      (aggLoop output a).file
          = a.file ++ goBytes (String.join (output.take k)) ++ firstBytes n line ∧
        (aggLoop output a).received = a.received ++ output.take (k + 1) ∧
        (aggLoop output a).pc = .signalling false ∧
        (aggLoop output a).signals = a.signals
  | [], a, k, n, line, _, _, _, ho => by simp at ho
  | l0 :: rest, a, 0, n, line, hp, _, hk, ho => by
    simp at ho
    subst ho
    cases hws : a.writes with
    | nil => simp [hws] at hk
    | cons w ws =>
      simp [hws] at hk
      subst hk
      simp [aggLoop, aggWrite, hws, String.join, goBytes_empty]
  | l0 :: rest, a, k + 1, n, line, hp, hw, hk, ho => by
    simp at ho
    cases hws : a.writes with
    | nil => simp [hws] at hk
    | cons w ws =>
      have hw0 : w = .ok := hw w (by simp [hws])
      subst hw0
      simp [hws] at hk
      have ih := aggLoop_fail rest
        { a with file := a.file ++ goBytes l0, received := a.received ++ [l0], writes := ws }
        k n line hp (by
          intro w hw'
          exact hw w (by simp [hws, hw'])) hk ho
      simp only [hp, hws] at ih
      simp only [aggLoop, aggWrite, hws, hp, if_true, List.take_succ_cons, join_cons,
        goBytes_append]
      simp [ih, List.append_assoc]

/-- C4, as the code has it: for every prior content of the file, every
sequence of lines delivered on `output` before it is closed and every pattern
of write outcomes, when `writeOutputToFile` creates the file: if no attempted
write fails, the file holds the bytes of the concatenation of all the lines in
receipt order, each received once; if the write of line `k` is the first to
fail, the file holds the bytes of the concatenation of the lines before it, in
receipt order, followed by the first `n` bytes of line `k` that the failing
call wrote (nothing more when `n = 0`), and no later line is received. -/
theorem file_holds_lines_written (pre : List UInt8) (writes : List WriteOutcome)
    (output : List String) :
    ((∀ w ∈ writes.take output.length, w = WriteOutcome.ok) →
        (writeOutputToFile true pre writes output).file = goBytes (String.join output) ∧
          (writeOutputToFile true pre writes output).received = output) ∧
      (∀ (k n : Nat) (line : String), (∀ w ∈ writes.take k, w = WriteOutcome.ok) →
        writes[k]? = some (.fail n) → output[k]? = some line →
        (writeOutputToFile true pre writes output).file
            = goBytes (String.join (output.take k)) ++ (goBytes line).take n ∧
          (writeOutputToFile true pre writes output).received = output.take (k + 1) ∧
          (n = 0 →
            (writeOutputToFile true pre writes output).file
              = goBytes (String.join (output.take k)))) := by
  refine ⟨?_, ?_⟩
  · intro hw
    have := aggLoop_all_ok output ⟨.receiving, [], writes, true, [], 0, []⟩ rfl hw
    simp only [writeOutputToFile, aggCreate, if_true, aggSignal_file, aggSignal_received,
      Agg.start]
    simpa using ⟨this.1, this.2.1⟩
  · intro k n line hw hk ho
    have := aggLoop_fail output ⟨.receiving, [], writes, true, [], 0, []⟩ k n line rfl hw hk ho
    simp only [writeOutputToFile, aggCreate, if_true, aggSignal_file, aggSignal_received,
      Agg.start]
    have h1 := this.1
    have h2 := this.2.1
    simp only [List.nil_append, firstBytes] at h1 h2
    refine ⟨h1, h2, ?_⟩
    intro hn
    subst hn
    rw [h1]
    simp

/-- A second write that fails after 2 bytes leaves the first line and the
2 bytes of the first character of the second line in the file, and the third
line is not received; when it fails after 1 byte the file ends inside that
character. -/
theorem file_holds_lines_written_witness :
    (writeOutputToFile true (goBytes "stale\n") [.ok, .fail 2]
        ["x.a.com\n", "ñu.es\n", "z.c.com\n"]).file
        = goBytes (String.join ["x.a.com\n"]) ++ (goBytes "ñu.es\n").take 2 ∧
      goBytes (String.join ["x.a.com\n"]) ++ (goBytes "ñu.es\n").take 2
        = goBytes "x.a.com\nñ" ∧
      (writeOutputToFile true (goBytes "stale\n") [.ok, .fail 2]
        ["x.a.com\n", "ñu.es\n", "z.c.com\n"]).received = ["x.a.com\n", "ñu.es\n"] ∧
      (writeOutputToFile true (goBytes "stale\n") [.ok, .fail 1]
        ["x.a.com\n", "ñu.es\n", "z.c.com\n"]).file = goBytes "x.a.com\n" ++ [0xC3] :=
  ⟨((file_holds_lines_written (goBytes "stale\n") [.ok, .fail 2]
      ["x.a.com\n", "ñu.es\n", "z.c.com\n"]).2 1 2 "ñu.es\n" (by decide) rfl rfl).1,
    by decide,
    ((file_holds_lines_written (goBytes "stale\n") [.ok, .fail 2]
      ["x.a.com\n", "ñu.es\n", "z.c.com\n"]).2 1 2 "ñu.es\n" (by decide) rfl rfl).2.1,
    by decide⟩

/-- C4, as stated, fails: the second write fails after 3 bytes, and the file
is not the concatenation of the lines received before it. -/
theorem file_after_failed_write_counterexample :
    (writeOutputToFile true (goBytes "stale\n") [.ok, .fail 3]
        ["x.a.com\n", "y.b.com\n", "z.c.com\n"]).file = goBytes "x.a.com\ny.b" ∧
      (writeOutputToFile true (goBytes "stale\n") [.ok, .fail 3]
        ["x.a.com\n", "y.b.com\n", "z.c.com\n"]).file
        ≠ goBytes (String.join (["x.a.com\n", "y.b.com\n", "z.c.com\n"].take 1)) := by
  decide

/-- What the loop leaves at its end: it is at one `done <- b`, and `b` is true
exactly when none of the writes it attempted failed. -/
theorem aggLoop_signal :
    ∀ (output : List String) (a : Agg), a.pc = .receiving →
      ∃ b, (aggLoop output a).pc = .signalling b ∧
        (aggLoop output a).signals = a.signals ∧
        (aggLoop output a).created = a.created ∧
        (aggLoop output a).failedWrites = a.failedWrites + (if b = true then 0 else 1) ∧
        (b = true ↔ ∀ w ∈ a.writes.take output.length, w = WriteOutcome.ok)
  | [], a, _ => ⟨true, by simp [aggLoop, aggClosed]⟩
  | line :: rest, a, hp => by
    cases hws : a.writes with
    | nil =>
      obtain ⟨b, ih⟩ := aggLoop_signal rest
        { a with file := a.file ++ goBytes line, received := a.received ++ [line] } hp
      simp only [hp, hws] at ih
      refine ⟨b, ?_⟩
      simp only [aggLoop, aggWrite, hws, hp, if_true]
      simpa using ih
    | cons w ws =>
      cases w with
      | ok =>
        obtain ⟨b, ih⟩ := aggLoop_signal rest
          { a with file := a.file ++ goBytes line, received := a.received ++ [line],
                   writes := ws } hp
        simp only [hp, hws] at ih
        refine ⟨b, ?_⟩
        simp only [aggLoop, aggWrite, hws, hp, if_true]
        simpa using ih
      | fail n =>
        refine ⟨false, ?_⟩
        simp [aggLoop, aggWrite, hws]

/-- C5: for every outcome of `os.Create`, every prior content of the file,
every sequence of lines delivered on `output` and every pattern of write
outcomes, `writeOutputToFile` returns having sent exactly one value on `done`;
that value is true exactly when the file was created and no write it
attempted failed, and false when creation fails or a write fails. -/
theorem done_signalled_once (createOk : Bool) (pre : List UInt8) (writes : List WriteOutcome)
    (output : List String) :
    ∃ b, (writeOutputToFile createOk pre writes output).signals = [b] ∧
      (writeOutputToFile createOk pre writes output).pc = .returned ∧
      (b = true ↔ (writeOutputToFile createOk pre writes output).created = true ∧
        (writeOutputToFile createOk pre writes output).failedWrites = 0) ∧
      (b = true ↔ createOk = true ∧ ∀ w ∈ writes.take output.length, w = WriteOutcome.ok) ∧
      (createOk = false → b = false) := by
  cases createOk with
  | false =>
    refine ⟨false, ?_⟩
    simp [writeOutputToFile, aggCreate, aggSignal, Agg.start]
  | true =>
    obtain ⟨b, h1, h2, h3, h4, h5⟩ :=
      aggLoop_signal output ⟨.receiving, [], writes, true, [], 0, []⟩ rfl
    refine ⟨b, ?_⟩
    simp only [writeOutputToFile, aggCreate, if_true, Agg.start]
    simp only [aggSignal, h1, h2, h3, h4]
    cases b
    · simpa using h5
    · have h6 := h5.1 rfl
      simpa using h6

/-! ## Lines of a chunk -/

theorem splitChars_append_break :
    ∀ (p rest : List Char), (∀ c ∈ p, c ≠ '\n') →
      splitChars (p ++ '\n' :: rest) = p :: splitChars rest
  | [], rest, _ => by simp [splitChars]
  | c :: p, rest, h => by
    have hc : c ≠ '\n' := h c (by simp)
    have ih := splitChars_append_break p rest (fun d hd => h d (by simp [hd]))
    have ih2 : splitChars (p.append ('\n' :: rest)) = p :: splitChars rest := ih
    simp only [List.cons_append, splitChars, hc, if_false, ih2]

theorem intercalate_go_data (sep : String) :
    ∀ (l : List String) (acc : String),
      (String.intercalate.go acc sep l).data
        = acc.data ++ l.foldr (fun s r => sep.data ++ s.data ++ r) []
  | [], acc => by simp [String.intercalate.go]
  | s :: l, acc => by
    simp only [String.intercalate.go, intercalate_go_data sep l, String.data_append,
      List.foldr_cons, List.append_assoc]

theorem chunk_data (a : String) (l : List String) :
    (chunk (a :: l)).data
      = a.data ++ (l.foldr (fun s r => '\n' :: (s.data ++ r)) [] ++ ['\n']) := by
  have h := intercalate_go_data "\n" l a
  simp only [chunk, stringsJoin, String.intercalate, String.data_append, h]
  have : ∀ (m : List String),
      m.foldr (fun s r => "\n".data ++ s.data ++ r) []
        = m.foldr (fun s r => '\n' :: (s.data ++ r)) [] := by
    intro m
    induction m with
    | nil => rfl
    | cons s m ih => simp only [List.foldr_cons, ih]; rfl
  rw [this]
  simp

theorem splitChars_lines :
    ∀ (l : List String) (p : List Char), (∀ c ∈ p, c ≠ '\n') →
      (∀ s ∈ l, ∀ c ∈ s.data, c ≠ '\n') →
      splitChars (p ++ (l.foldr (fun s r => '\n' :: (s.data ++ r)) [] ++ ['\n']))
        = p :: (l.map String.data ++ [[]])
  | [], p, hp, _ => by
    simp only [List.foldr_nil, List.nil_append, List.map_nil]
    rw [splitChars_append_break p [] hp]
    rfl
  | s :: l, p, hp, hl => by
    have ih := splitChars_lines l s.data (hl s (by simp)) (fun t ht => hl t (by simp [ht]))
    simp only [List.foldr_cons, List.cons_append, List.map_cons]
    rw [splitChars_append_break p _ hp, List.append_assoc, ih]

/-- C10, for subdomains without a line break: for every non-empty list of
subdomain strings none of which contains a line break, splitting the chunk
`scanDomain` builds at the line breaks and dropping the final empty piece
gives back the list, so the chunk has one line per subdomain and its i-th
line is the i-th subdomain. -/
theorem chunk_lines_are_subdomains (subdomains : List String) (hne : subdomains ≠ [])
    (hnl : ∀ s ∈ subdomains, ∀ c ∈ s.data, c ≠ '\n') :
    scanDomain (.ok subdomains) = [chunk subdomains] ∧
      linesOf (chunk subdomains) = subdomains ∧
      (linesOf (chunk subdomains)).length = subdomains.length ∧
      ∀ (i : Nat), (linesOf (chunk subdomains))[i]? = subdomains[i]? := by
  have key : linesOf (chunk subdomains) = subdomains := by
    cases subdomains with
    | nil => exact absurd rfl hne
    | cons a l =>
      have h1 := splitChars_lines l a.data (hnl a (by simp)) (fun t ht => hnl t (by simp [ht]))
      simp only [linesOf, splitLines, chunk_data, h1, List.map_cons, List.map_append,
        List.map_map]
      have h2 : (String.mk ∘ String.data) = id := by
        funext s
        rfl
      rw [h2, List.map_id]
      have h3 : (a :: (l ++ ({ data := [] } : String) :: List.map String.mk []))
          = (a :: l) ++ [""] := rfl
      have h4 : ({ data := a.data } : String) = a := rfl
      rw [h4, h3, List.dropLast_concat]
  refine ⟨?_, key, by rw [key], fun i => by rw [key]⟩
  have : subdomains.length > 0 := List.length_pos.2 hne
  simp [scanDomain, this]

/-- The chunk of the two subdomains of `a.com` has them as its two lines. -/
theorem chunk_lines_are_subdomains_witness :
    linesOf (chunk ["x.a.com", "y.a.com"]) = ["x.a.com", "y.a.com"] ∧
      chunk ["x.a.com", "y.a.com"] = "x.a.com\ny.a.com\n" :=
  ⟨(chunk_lines_are_subdomains ["x.a.com", "y.a.com"] (by decide) (by decide)).2.1, by decide⟩

/-- C10, as stated, fails: a subdomain string that contains a line break
takes two lines of the chunk. -/
theorem chunk_lines_counterexample :
    scanDomain (.ok ["a\nb.example.com"]) = [chunk ["a\nb.example.com"]] ∧
      linesOf (chunk ["a\nb.example.com"]) = ["a", "b.example.com"] ∧
      linesOf (chunk ["a\nb.example.com"]) ≠ ["a\nb.example.com"] ∧
      (linesOf (chunk ["a\nb.example.com"])).length ≠ ["a\nb.example.com"].length := by
  decide

/-! ## Setup errors -/

/-- C9: for every setup error (the configuration cannot be loaded, neither
`-f` nor `-d` is given, the `-f` file cannot be opened, or reading it fails)
the setup does not start the scan, and the run makes no `fetchSubdomains`
call, does not create the output file and leaves its content as it was. -/
theorem setup_error_starts_nothing (env : Env)
    (herr : (∃ e, env.loadConfig = .error e) ∨ (env.fileFlag = "" ∧ env.domainFlag = "") ∨
      (env.fileFlag ≠ "" ∧ ∃ e, env.domainFile = .error e) ∨
      (env.fileFlag ≠ "" ∧ ∃ lines e, env.domainFile = .ok (lines, some e))) :
    (∀ apiKey domains, setup env ≠ .start apiKey domains) ∧
      main env [] = some ⟨0, false, env.pre, none⟩ ∧
      ∀ (sched : List Action) (o : Observed), main env sched = some o →
        o.fetchCalls = 0 ∧ o.sinkCreated = false ∧ o.file = env.pre ∧ o.success = none := by
  have hs : ∀ apiKey domains, setup env ≠ .start apiKey domains := by
    intro apiKey domains
    unfold setup
    rcases herr with ⟨e, he⟩ | ⟨h1, h2⟩ | ⟨h1, e, he⟩ | ⟨h1, lines, e, he⟩
    · simp [he]
    · cases env.loadConfig with
      | error e => simp
      | ok key =>
        by_cases hh : env.helpFlag = true <;> simp [hh, h1, h2]
    · cases env.loadConfig with
      | error e => simp
      | ok key =>
        by_cases hh : env.helpFlag = true <;> simp [hh, h1, he]
    · cases env.loadConfig with
      | error e => simp
      | ok key =>
        by_cases hh : env.helpFlag = true <;> simp [hh, h1, he]
  have hrun : ∀ (sched : List Action) (o : Observed), main env sched = some o →
      o = ⟨0, false, env.pre, none⟩ := by
    intro sched o ho
    unfold main at ho
    cases hse : setup env with
    | start apiKey domains => exact absurd hse (hs apiKey domains)
    | abort m =>
      cases sched <;> simp [hse] at ho
      exact ho.symm
    | help =>
      cases sched <;> simp [hse] at ho
      exact ho.symm
  refine ⟨hs, ?_, ?_⟩
  · unfold main
    cases hse : setup env with
    | start apiKey domains => exact absurd hse (hs apiKey domains)
    | abort m => rfl
    | help => rfl
  · intro sched o ho
    rw [hrun sched o ho]
    exact ⟨rfl, rfl, rfl, rfl⟩

/-- Without `config.json` nothing is started; with a key and `-d a.com` the
setup starts the scan of `a.com`. -/
theorem setup_error_starts_nothing_witness :
    main envNoConfig [] = some ⟨0, false, goBytes "stale\n", none⟩ ∧
      setup envSingle = .start "key" ["a.com"] ∧
      main envSingle scheduleSingle = some ⟨1, true, goBytes "x.a.com\n", some true⟩ :=
  ⟨(setup_error_starts_nothing envNoConfig (Or.inl ⟨_, rfl⟩)).2.1, by decide, by decide⟩

/-! ## The aggregator goroutine runs `writeOutputToFile` -/

theorem aggWrite_pc (line : String) (a : Agg) (ha : a.pc = .receiving) :
    (aggWrite line a).pc = .receiving ∨ (aggWrite line a).pc = .signalling false := by
  unfold aggWrite
  split <;> simp [ha]

theorem writeOutputToFile_opened (cfg : Cfg) (hok : cfg.createOk = true)
    (output : List String) :
    writeOutputToFile cfg.createOk cfg.pre cfg.writes output
      = aggSignal (aggLoop output (Agg.opened cfg)) := by
  simp [writeOutputToFile, hok, aggCreate, Agg.opened]

theorem seqInv_init (cfg : Cfg) : SeqInv cfg (init cfg) := by
  constructor <;> simp [init, Agg.start]

theorem seqInv_same {cfg : Cfg} {s u : St} (h : SeqInv cfg s) (ha : AggInv cfg s)
    (h1 : u.agg = s.agg) (h2 : s.main.isFinished = false) : SeqInv cfg u := by
  obtain ⟨a1, a2, a3, a4⟩ := h
  refine ⟨by rw [h1]; exact a1, by rw [h1]; exact a2, by rw [h1]; exact a3, ?_⟩
  intro hp
  rw [h1] at hp
  have := ha.returned.1 hp
  rw [h2] at this
  cases this

theorem seqInv_step {cfg : Cfg} {s t : St} (ha : AggInv cfg s) (h : SeqInv cfg s)
    (hs : Step cfg s t) : SeqInv cfg t := by
  cases hs with
  | loopNext hm hi => exact seqInv_same h ha rfl (isFinished_false_of hm rfl)
  | loopEnd hm hi => exact seqInv_same h ha rfl (isFinished_false_of hm rfl)
  | acquire hm hs => exact seqInv_same h ha rfl (isFinished_false_of hm rfl)
  | spawn hm ht => exact seqInv_same h ha rfl (isFinished_false_of hm rfl)
  | wait hm hw => exact seqInv_same h ha rfl (isFinished_false_of hm rfl)
  | close hm hc => exact seqInv_same h ha rfl (isFinished_false_of hm rfl)
  | enter hm ht hp => exact seqInv_same h ha rfl hm
  | fetchNone hm ht hp hr => exact seqInv_same h ha rfl hm
  | fetchSome hm ht hp hr => exact seqInv_same h ha rfl hm
  | send hm ht hp hc hb => exact seqInv_same h ha rfl hm
  | done hm ht hp hw => exact seqInv_same h ha rfl hm
  | release hm ht hp hs => exact seqInv_same h ha rfl hm
  | recv hm hp =>
    rename_i b
    have h1 := h.signalling b hp s.out (fun hb => ((ha.signalling b hp).2.2 hb).2)
    refine ⟨by simp, by simp, by simp, ?_⟩
    intro _
    rw [show s.agg.received ++ s.out = s.agg.received ++ s.out from rfl] at h1
    simpa [aggSignal, hp] using h1
  | create hm hp =>
    have h0 := h.creating hp
    by_cases hok : cfg.createOk = true
    · refine ⟨?_, ?_, ?_, ?_⟩ <;> simp only [hok, h0]
      · simp [aggCreate, Agg.start]
      · intro _
        exact ⟨trivial, fun rest => by simp [aggCreate, Agg.start, Agg.opened]⟩
      · intro b hb
        simp [aggCreate, Agg.start] at hb
      · intro hb
        simp [aggCreate, Agg.start] at hb
    · simp only [Bool.not_eq_true] at hok
      refine ⟨?_, ?_, ?_, ?_⟩ <;> simp only [hok, h0]
      · simp [aggCreate, Agg.start]
      · simp [aggCreate, Agg.start]
      · intro b _ rest _
        simp [writeOutputToFile, aggCreate, Agg.start]
      · intro hb
        simp [aggCreate, Agg.start] at hb
  | write hm hp ho =>
    rename_i line rest0
    obtain ⟨hok, h1⟩ := h.receiving hp
    have hrec := aggWrite_received line s.agg
    have hloop : ∀ rest, aggLoop ((aggWrite line s.agg).received ++ rest) (Agg.opened cfg)
        = if (aggWrite line s.agg).pc = .receiving then aggLoop rest (aggWrite line s.agg)
          else aggWrite line s.agg := by
      intro rest
      rw [hrec, List.append_assoc, List.singleton_append, h1 (line :: rest)]
      simp [aggLoop]
    refine ⟨?_, ?_, ?_, ?_⟩
    · intro hc
      rcases aggWrite_pc line s.agg hp with h2 | h2 <;> simp [h2] at hc
    · intro hc
      refine ⟨hok, fun rest => ?_⟩
      have := hloop rest
      dsimp only at hc ⊢
      rw [this, if_pos hc]
    · intro b hb rest _
      dsimp only at hb ⊢
      have hne : (aggWrite line s.agg).pc ≠ .receiving := by simp [hb]
      have := hloop rest
      rw [if_neg hne] at this
      rw [writeOutputToFile_opened cfg hok, this]
    · intro hc
      rcases aggWrite_pc line s.agg hp with h2 | h2 <;> simp [h2] at hc
  | drained hm hp ho hc =>
    obtain ⟨hok, h1⟩ := h.receiving hp
    refine ⟨by simp [aggClosed], by simp [aggClosed], ?_, by simp [aggClosed]⟩
    intro b hb rest hrest
    simp only [aggClosed, AggPc.signalling.injEq] at hb
    subst hb
    rw [hrest rfl]
    have := h1 []
    simp only [aggLoop] at this
    rw [writeOutputToFile_opened cfg hok]
    show aggSignal (aggLoop (s.agg.received ++ []) (Agg.opened cfg)) = aggSignal (aggClosed s.agg)
    rw [this]

theorem seqInv_reach {cfg : Cfg} {s : St} (h : Reach cfg s) : SeqInv cfg s := by
  induction h with
  | start => exact seqInv_init cfg
  | next hr hs ih => exact seqInv_step (aggInv_reach hr) ih hs

/-- When `main` has returned, the aggregator goroutine has done what
`writeOutputToFile` does on the lines that were sent on `output`: those it
received, followed by those it left in the buffer. -/
theorem aggregator_runs_function (cfg : Cfg) (sched : List Action) (s : St) (b : Bool)
    (h : run cfg sched (init cfg) = some s) (hb : s.main = .finished b) :
    s.agg = writeOutputToFile cfg.createOk cfg.pre cfg.writes (s.agg.received ++ s.out) := by
  have hr := reach_of_run h
  have hp := (aggInv_reach hr).returned.2 (by simp [hb, MainPc.isFinished])
  exact ((seqInv_reach hr).returned hp).symm

end SubRecon
